import Mathlib

/-!
# Compute kernels of `funcs.cpp`: embedding and verified properties

Shallow embedding of the matmul dispatcher, its kernels and the elementwise
primitives of `src/funcs.cpp`.

Conventions of the embedding.
* A C pointer is a function from `Int` (the index) to the element type; the
  pointer `&w[off]` is the shifted function `fun i => w (off + i)`.
* `float` values live in an abstract carrier `α`.  Definitions only use the
  operations the code uses; theorems about sums assume exact arithmetic
  (a commutative ring or a linear ordered field).
* `unsigned int` arithmetic is arithmetic on `Nat` reduced `% 2 ^ 32`; the
  conversions between `int` and `unsigned int` are `toUInt32` and `toInt32`.
* `assert` and `exit(EXIT_FAILURE)` end the run: fallible operations return
  `Except Fault`.
* `#if defined(__ARM_NEON)` selects between two bodies; both are embedded,
  the vectorized one with the suffix `Neon`, the portable one with `Scalar`.
-/

namespace DLlama

/-! ## Machine integers -/

/-- Conversion of an `int` to `unsigned int` (reduction modulo `2 ^ 32`). -/
def toUInt32 (v : Int) : Nat := (v % 2 ^ 32).toNat

/-- Conversion of an `unsigned int` to `int` (two's complement). -/
def toInt32 (v : Nat) : Int :=
  if v % 2 ^ 32 < 2 ^ 31 then ((v % 2 ^ 32 : Nat) : Int) else ((v % 2 ^ 32 : Nat) : Int) - 2 ^ 32

/-! ## Thread partition of `matmul` (lines 275-276) -/

/-- The value `s.ds = threadIndex * d / nThreads`: `d` is converted to
`unsigned int`, product and quotient are unsigned, the result is stored in an `int`. -/
def matmulDs (threadIndex : Nat) (d : Int) (nThreads : Nat) : Int :=
  toInt32 ((threadIndex * toUInt32 d % 2 ^ 32) / nThreads)

/-- The value `s.de = (threadIndex + 1) * d / nThreads`, evaluated the same way. -/
def matmulDe (threadIndex : Nat) (d : Int) (nThreads : Nat) : Int :=
  toInt32 (((threadIndex + 1) % 2 ^ 32 * toUInt32 d % 2 ^ 32) / nThreads)

/-- Number of rows `de - ds` of a thread. -/
def matmulRows (threadIndex : Nat) (d : Int) (nThreads : Nat) : Int :=
  matmulDe threadIndex d nThreads - matmulDs threadIndex d nThreads

/-- The row ranges of the threads `0 .. threadCount - 1` cover `[0, d)` exactly once:
the first starts at `0`, each ends where the next begins, the last ends at `d`, and
every row lies in the range of exactly one thread. -/
def PartitionCovers (d : Int) (threadCount : Nat) : Prop :=
  matmulDs 0 d threadCount = 0 ∧
  (∀ t, t + 1 < threadCount → matmulDe t d threadCount = matmulDs (t + 1) d threadCount) ∧
  matmulDe (threadCount - 1) d threadCount = d ∧
  (∀ r : Int, 0 ≤ r → r < d →
    ∃! t, t < threadCount ∧ matmulDs t d threadCount ≤ r ∧ r < matmulDe t d threadCount)

/-! ## Loops -/

/-- The loop `for (int d = lo; d < hi; d++) body(d)`: it runs `hi - lo` times (no time when
`hi ≤ lo`), at `d = lo, lo + 1, ...`. -/
def forRows {σ : Type} (lo hi : Int) (body : Int → σ → σ) (s : σ) : σ :=
  (List.range (hi - lo).toNat).foldl (fun (s : σ) (i : Nat) => body (lo + (i : Int)) s) s

/-- The loop `for (int j = lo; j < hi; j += step) body(j)` with `step ≥ 1`: it runs at
`j = lo, lo + step, ...` while `j < hi`, that is `⌈(hi - lo) / step⌉` times. -/
def forStep {σ : Type} (lo hi step : Nat) (body : Nat → σ → σ) (s : σ) : σ :=
  (List.range ((hi - lo + (step - 1)) / step)).foldl
    (fun (s : σ) (i : Nat) => body (lo + step * i) s) s

/-! ## NEON vectors -/

/-- The vector type `float32x4_t`: four lanes. -/
structure F32x4 (α : Type) where
  l0 : α
  l1 : α
  l2 : α
  l3 : α

/-- Intrinsic `vmovq_n_f32`: all lanes set to one value. -/
def vmovq_n_f32 {α : Type} (v : α) : F32x4 α := ⟨v, v, v, v⟩

/-- Intrinsic `vld1q_f32(&p[i])`: loads `p[i], p[i+1], p[i+2], p[i+3]`. -/
def vld1q_f32 {α : Type} (p : Int → α) (i : Int) : F32x4 α := ⟨p i, p (i + 1), p (i + 2), p (i + 3)⟩

/-- Intrinsic `vmlaq_f32(a, b, c)`: lane-wise `a + b * c`. -/
def vmlaq_f32 {α : Type} [Add α] [Mul α] (a b c : F32x4 α) : F32x4 α :=
  ⟨a.l0 + b.l0 * c.l0, a.l1 + b.l1 * c.l1, a.l2 + b.l2 * c.l2, a.l3 + b.l3 * c.l3⟩

/-- Intrinsic `vfmaq_f32(a, b, c)`: lane-wise fused `a + b * c`. -/
def vfmaq_f32 {α : Type} [Add α] [Mul α] (a b c : F32x4 α) : F32x4 α :=
  ⟨a.l0 + b.l0 * c.l0, a.l1 + b.l1 * c.l1, a.l2 + b.l2 * c.l2, a.l3 + b.l3 * c.l3⟩

/-- Intrinsic `vmlaq_n_f32(a, b, c)`: lane-wise `a + b * c` with the scalar `c`. -/
def vmlaq_n_f32 {α : Type} [Add α] [Mul α] (a b : F32x4 α) (c : α) : F32x4 α :=
  ⟨a.l0 + b.l0 * c, a.l1 + b.l1 * c, a.l2 + b.l2 * c, a.l3 + b.l3 * c⟩

/-- Intrinsic `vaddvq_f32`: horizontal sum of the four lanes (pairwise). -/
def vaddvq_f32 {α : Type} [Add α] (a : F32x4 α) : α := (a.l0 + a.l1) + (a.l2 + a.l3)

/-- Intrinsic `vmaxq_f32`: lane-wise maximum. -/
def vmaxq_f32 {α : Type} [Max α] (a b : F32x4 α) : F32x4 α :=
  ⟨max a.l0 b.l0, max a.l1 b.l1, max a.l2 b.l2, max a.l3 b.l3⟩

/-- Intrinsic `vmaxvq_f32`: maximum of the four lanes. -/
def vmaxvq_f32 {α : Type} [Max α] (a : F32x4 α) : α := max (max a.l0 a.l1) (max a.l2 a.l3)

/-- Wraparound of a value to `int8_t`. -/
def wrapS8 (v : Int) : Int := (v + 128) % 256 - 128

/-- Wraparound of a value to `int16_t`. -/
def wrapS16 (v : Int) : Int := (v + 32768) % 65536 - 32768

/-- Wraparound of a value to `int32_t`. -/
def wrapS32 (v : Int) : Int := (v + 2147483648) % 4294967296 - 2147483648

/-- Intrinsic `vld1q_u8(p)`: sixteen `uint8_t` lanes `p[0..15]`. -/
def vld1q_u8 (p : Nat → Nat) : Nat → Nat := fun i => p i % 256

/-- Intrinsic `vandq_u8(v, vdupq_n_u8(m))`: lane-wise bitwise and with the byte `m`. -/
def vandq_u8 (v : Nat → Nat) (m : Nat) : Nat → Nat := fun i => v i &&& m

/-- Intrinsic `vshrq_n_u8(v, k)`: lane-wise logical shift right. -/
def vshrq_n_u8 (v : Nat → Nat) (k : Nat) : Nat → Nat := fun i => v i >>> k

/-- Intrinsic `vreinterpretq_s8_u8`: the same bytes read as `int8_t`. -/
def vreinterpretq_s8_u8 (v : Nat → Nat) : Nat → Int := fun i => wrapS8 (v i)

/-- Intrinsic `vsubq_s8(a, vdupq_n_s8(c))`: lane-wise subtraction in `int8_t`. -/
def vsubq_s8 (a : Nat → Int) (c : Int) : Nat → Int := fun i => wrapS8 (a i - c)

/-- Intrinsic `vld1q_s8(p + off)`: sixteen `int8_t` lanes `p[off .. off + 15]`. -/
def vld1q_s8 (p : Nat → Int) (off : Nat) : Nat → Int := fun i => wrapS8 (p (off + i))

/-- Intrinsic `vdotq_s32(r, a, b)`: lane `k` of the four `int32_t` lanes receives
`r[k] + a[4k]*b[4k] + a[4k+1]*b[4k+1] + a[4k+2]*b[4k+2] + a[4k+3]*b[4k+3]`. -/
def vdotq_s32 (r a b : Nat → Int) : Nat → Int := fun k =>
  wrapS32 (r k + a (4 * k) * b (4 * k) + a (4 * k + 1) * b (4 * k + 1)
    + a (4 * k + 2) * b (4 * k + 2) + a (4 * k + 3) * b (4 * k + 3))

/-- Intrinsic `vget_low_s8`: lanes `0..7`. -/
def vget_low_s8 (a : Nat → Int) : Nat → Int := fun i => a i

/-- Intrinsic `vget_high_s8`: lanes `8..15`. -/
def vget_high_s8 (a : Nat → Int) : Nat → Int := fun i => a (8 + i)

/-- Intrinsic `vmull_s8`: eight widening products, each an `int16_t`. -/
def vmull_s8 (a b : Nat → Int) : Nat → Int := fun i => wrapS16 (a i * b i)

/-- Intrinsic `vpaddlq_s16`: four `int32_t` lanes, lane `k` the widened sum of the
`int16_t` lanes `2k` and `2k + 1`. -/
def vpaddlq_s16 (a : Nat → Int) : Nat → Int := fun k => wrapS32 (a (2 * k) + a (2 * k + 1))

/-- Intrinsic `vaddq_s32`: lane-wise sum in `int32_t`. -/
def vaddq_s32 (a b : Nat → Int) : Nat → Int := fun k => wrapS32 (a k + b k)

/-- Intrinsic `vcvtq_f32_s32`: the four `int32_t` lanes converted to `float`. -/
def vcvtq_f32_s32 {α : Type} [IntCast α] (p : Nat → Int) : F32x4 α :=
  ⟨((p 0 : Int) : α), ((p 1 : Int) : α), ((p 2 : Int) : α), ((p 3 : Int) : α)⟩

/-! ## Data model -/

/-- Modelled from the spec: the numeric format tag `FloatType` of `quants.hpp` (§3: dense
32-bit float, dense 16-bit float, 4-bit block-quantized, 8-bit block-quantized). -/
inductive FloatType where
  | F32
  | F16
  | Q40
  | Q80
  deriving DecidableEq

/-- Modelled from the spec: `QK40` of `quants.hpp`, the element count of a 4-bit block (§3). -/
def QK40 : Nat := 32

/-- Modelled from the spec: `BlockQ40` of `quants.hpp` (§6): a 16-bit float scale `d` and 16
bytes `qs` of packed 4-bit magnitudes. -/
structure BlockQ40 where
  d : Nat
  qs : Nat → Nat

/-- Modelled from the spec: `BlockQ80` of `quants.hpp` (§6): a 16-bit float scale `d` and 32
signed 8-bit magnitudes `qs`. -/
structure BlockQ80 where
  d : Nat
  qs : Nat → Int

/-- An untyped buffer (`void*`): the typed arrays that the casts `(float*)`, `(uint16_t*)`,
`(BlockQ40*)` and `(BlockQ80*)` of the kernels read from it. -/
structure Buffer (α : Type) where
  asF32 : Int → α
  asF16 : Int → Nat
  asQ40 : Int → BlockQ40
  asQ80 : Int → BlockQ80

/-- The struct `MatmulThreadInfo` (lines 92-100) with the memory its pointers refer to:
`output`, `input` and `weights` are disjoint caller-owned buffers; `n` is a non-negative
`int`. The field `handler` is never read. -/
structure MatmulThreadInfo (α : Type) where
  output : Int → α
  input : Buffer α
  weights : Buffer α
  n : Nat
  ds : Int
  de : Int

/-- Ways in which a run ends without returning. -/
inductive Fault where
  /-- an `assert` failed -/
  | assertion
  /-- `matmul` printed "Unsupported float types" and called `exit(EXIT_FAILURE)` -/
  | unsupportedFloatTypes (weightsFloatType inputFloatType : FloatType)
  /-- `matmulQ40vQ80` printed "not implemented" and called `exit(EXIT_FAILURE)` -/
  | notImplemented
  deriving DecidableEq

/-- Build configuration: whether `__ARM_NEON` and `__ARM_FEATURE_DOTPROD` are defined. -/
structure Build where
  neon : Bool
  dotprod : Bool
  deriving DecidableEq

/-! ## Kernels (lines 102-260) -/

/-- The row loop shared by the kernels: `for (d = a->ds; d < a->de; d++) a->output[d] = val(d)`,
where `val(d)` is what the body of the loop computes for row `d` from `input` and `weights`. -/
def storeRows {α : Type} (val : Int → α) (a : MatmulThreadInfo α) : MatmulThreadInfo α :=
  forRows a.ds a.de (fun d s => { s with output := Function.update s.output d (val d) }) a

/-- Row value of the portable `matmulF32` (lines 122-125). -/
def matmulF32ScalarRow {α : Type} [Zero α] [Add α] [Mul α] (w input : Int → α) (n : Nat)
    (d : Int) : α :=
  (List.range n).foldl (fun (val : α) (j : Nat) => val + w (d * n + j) * input j) 0

/-- Portable body of `matmulF32` (lines 121-127). -/
def matmulF32Scalar {α : Type} [Zero α] [Add α] [Mul α] (a : MatmulThreadInfo α) :
    MatmulThreadInfo α :=
  let input := a.input.asF32
  let w := a.weights.asF32
  storeRows (matmulF32ScalarRow w input a.n) a

/-- Row value of the vectorized `matmulF32` (lines 112-118): the loop runs at
`j = 0, 4, 8, ...` while `j < n`. -/
def matmulF32NeonRow {α : Type} [Zero α] [Add α] [Mul α] (w input : Int → α) (n : Nat)
    (d : Int) : α :=
  let z := forStep 0 n 4 (fun (j : Nat) (z : F32x4 α) =>
    let q := vld1q_f32 input j
    let p := vld1q_f32 w (d * n + j)
    vfmaq_f32 z q p) (vmovq_n_f32 0)
  vaddvq_f32 z

/-- Vectorized body of `matmulF32` (lines 108-119). -/
def matmulF32Neon {α : Type} [Zero α] [Add α] [Mul α] (a : MatmulThreadInfo α) :
    MatmulThreadInfo α :=
  let input := a.input.asF32
  let w := a.weights.asF32
  storeRows (matmulF32NeonRow w input a.n) a

/-- The kernel `matmulF32` (lines 102-129). -/
def matmulF32 {α : Type} [Zero α] [Add α] [Mul α] (b : Build) (a : MatmulThreadInfo α) :
    MatmulThreadInfo α :=
  if b.neon then matmulF32Neon a else matmulF32Scalar a

/-- Row value of `matmulF16` (lines 136-140); `convertF16ToF32` of `quants.hpp` is a
parameter. -/
def matmulF16Row {α : Type} [Zero α] [Add α] [Mul α] (convertF16ToF32 : Nat → α)
    (w : Int → Nat) (input : Int → α) (n : Nat) (d : Int) : α :=
  (List.range n).foldl (fun (val : α) (j : Nat) =>
    let ww := convertF16ToF32 (w (d * n + j))
    val + ww * input j) 0

/-- The kernel `matmulF16` (lines 131-143). -/
def matmulF16 {α : Type} [Zero α] [Add α] [Mul α] (convertF16ToF32 : Nat → α)
    (a : MatmulThreadInfo α) : MatmulThreadInfo α :=
  let input := a.input.asF32
  let w := a.weights.asF16
  storeRows (matmulF16Row convertF16ToF32 w input a.n) a

/-- Low nibble of a byte. -/
def lowNibble (byte : Nat) : Nat := (byte % 256) &&& 0x0F

/-- High nibble of a byte. -/
def highNibble (byte : Nat) : Nat := (byte % 256) >>> 4

/-- Modelled from the spec: `dequantizeQ40Row(x, y, k)` of `quants.hpp`, which is not among
the sources (§4.1, §3, §6): it writes `k` floats into `y`; block `b` expands to 32 floats,
the low nibble of byte `i` to element `32 b + i` and the high nibble of byte `i` to element
`32 b + 16 + i`, each reconstructed as `(nibble - 8) * scale`. The entries of `y` from `k`
on keep their value. -/
def dequantizeQ40Row {α : Type} [Mul α] [IntCast α] (convertF16ToF32 : Nat → α)
    (x : Int → BlockQ40) (y : Int → α) (k : Nat) : Int → α := fun z =>
  if 0 ≤ z ∧ z < k then
    let blk := x (z / QK40)
    let i := (z % QK40).toNat
    let scale := convertF16ToF32 blk.d
    if i < QK40 / 2 then (((lowNibble (blk.qs i) : Int) - 8 : Int) : α) * scale
    else (((highNibble (blk.qs (i - QK40 / 2)) : Int) - 8 : Int) : α) * scale
  else y z

/-- Row value of the portable `matmulQ40` (lines 173-179); `group` is the local buffer
`float group[k]` and `n` the number of groups. -/
def matmulQ40ScalarRow {α : Type} [Zero α] [Add α] [Mul α] [IntCast α]
    (convertF16ToF32 : Nat → α) (blocksPerRow k n : Nat) (w : Int → BlockQ40)
    (input : Int → α) (group : Int → α) (d : Int) : α :=
  (List.range n).foldl (fun (val : α) (j : Nat) =>
    let group := dequantizeQ40Row convertF16ToF32
      (fun i => w (d * n * blocksPerRow + j * blocksPerRow + i)) group k
    (List.range k).foldl
      (fun (val : α) (z : Nat) => val + group z * input (j * k + z)) val) 0

/-- Row value of the vectorized `matmulQ40` (lines 160-169). -/
def matmulQ40NeonRow {α : Type} [Zero α] [Add α] [Mul α] [IntCast α]
    (convertF16ToF32 : Nat → α) (blocksPerRow k n : Nat) (w : Int → BlockQ40)
    (input : Int → α) (group : Int → α) (d : Int) : α :=
  let u := (List.range n).foldl (fun (u : F32x4 α) (j : Nat) =>
    let group := dequantizeQ40Row convertF16ToF32
      (fun i => w (d * n * blocksPerRow + j * blocksPerRow + i)) group k
    forStep 0 k 4 (fun (z : Nat) (u : F32x4 α) =>
      let a0 := vld1q_f32 input (j * k + z)
      let b0 := vld1q_f32 group z
      vfmaq_f32 u a0 b0) u) (vmovq_n_f32 0)
  vaddvq_f32 u

/-- The kernel `matmulQ40` (lines 145-183). The local buffer `group` is uninitialised in the
source; every entry the kernel reads is written first, here it starts as zeros. The second
assertion `k % 16 == 0` belongs to the vectorized body. -/
def matmulQ40 {α : Type} [Zero α] [Add α] [Mul α] [IntCast α] (b : Build)
    (convertF16ToF32 : Nat → α) (a : MatmulThreadInfo α) : Except Fault (MatmulThreadInfo α) :=
  let blocksPerRow := 8
  let k := QK40 * blocksPerRow
  let w := a.weights.asQ40
  if a.n % k ≠ 0 then Except.error Fault.assertion else
  let input := a.input.asF32
  let n := a.n / k
  let group : Int → α := fun _ => 0
  if b.neon then
    if k % 16 ≠ 0 then Except.error Fault.assertion else
    Except.ok (storeRows (matmulQ40NeonRow convertF16ToF32 blocksPerRow k n w input group) a)
  else
    Except.ok (storeRows (matmulQ40ScalarRow convertF16ToF32 blocksPerRow k n w input group) a)

/-- The 4-bit magnitudes of a block as `int8_t` lanes (lines 203-219): the low nibbles minus 8
and the high nibbles minus 8. -/
def unpackQ40 (x : BlockQ40) : (Nat → Int) × (Nat → Int) :=
  let m4b := 0x0F
  let s8b := 0x8
  let v0 := vld1q_u8 x.qs
  let v0l := vreinterpretq_s8_u8 (vandq_u8 v0 m4b)
  let v0h := vreinterpretq_s8_u8 (vshrq_n_u8 v0 4)
  (vsubq_s8 v0l s8b, vsubq_s8 v0h s8b)

/-- Integer dot product of one 4-bit block with one 8-bit block, four `int32_t` lanes:
the variant with `__ARM_FEATURE_DOTPROD` (lines 229-230). -/
def blockDotDotprod (x : BlockQ40) (y : BlockQ80) : Nat → Int :=
  let v0ls := (unpackQ40 x).1
  let v0hs := (unpackQ40 x).2
  let v1l := vld1q_s8 y.qs 0
  let v1h := vld1q_s8 y.qs 16
  vdotq_s32 (vdotq_s32 (fun _ => 0) v0ls v1l) v0hs v1h

/-- Integer dot product of one 4-bit block with one 8-bit block, four `int32_t` lanes:
the variant with widening multiplies (lines 235-250). -/
def blockDotWiden (x : BlockQ40) (y : BlockQ80) : Nat → Int :=
  let v0ls := (unpackQ40 x).1
  let v0hs := (unpackQ40 x).2
  let v1l := vld1q_s8 y.qs 0
  let v1h := vld1q_s8 y.qs 16
  let pll := vmull_s8 (vget_low_s8 v0ls) (vget_low_s8 v1l)
  let plh := vmull_s8 (vget_high_s8 v0ls) (vget_high_s8 v1l)
  let phl := vmull_s8 (vget_low_s8 v0hs) (vget_low_s8 v1h)
  let phh := vmull_s8 (vget_high_s8 v0hs) (vget_high_s8 v1h)
  let pl := vaddq_s32 (vpaddlq_s16 pll) (vpaddlq_s16 plh)
  let ph := vaddq_s32 (vpaddlq_s16 phl) (vpaddlq_s16 phh)
  vaddq_s32 pl ph

/-- The four `int32_t` lanes of one block pair in the build `b`. -/
def blockDot (b : Build) (x : BlockQ40) (y : BlockQ80) : Nat → Int :=
  if b.dotprod then blockDotDotprod x y else blockDotWiden x y

/-- Row value of the vectorized `matmulQ40vQ80` (lines 195-254): the blocks are taken two at
a time, `j = 0, 2, 4, ...` while `j < n`, with the accumulators `sumv0` (block `j`) and
`sumv1` (block `j + 1`). -/
def matmulQ40vQ80NeonRow {α : Type} [Zero α] [Add α] [Mul α] [IntCast α] (b : Build)
    (convertF16ToF32 : Nat → α) (n : Nat) (w : Int → BlockQ40) (input : Int → BlockQ80)
    (d : Int) : α :=
  let sums := forStep 0 n 2 (fun (j : Nat) (sums : F32x4 α × F32x4 α) =>
    let x0 := w (d * n + j)
    let x1 := w (d * n + j + 1)
    let y0 := input j
    let y1 := input (j + 1)
    let p_0 := blockDot b x0 y0
    let p_1 := blockDot b x1 y1
    (vmlaq_n_f32 sums.1 (vcvtq_f32_s32 p_0) (convertF16ToF32 x0.d * convertF16ToF32 y0.d),
     vmlaq_n_f32 sums.2 (vcvtq_f32_s32 p_1) (convertF16ToF32 x1.d * convertF16ToF32 y1.d)))
    (vmovq_n_f32 0, vmovq_n_f32 0)
  vaddvq_f32 sums.1 + vaddvq_f32 sums.2

/-- The kernel `matmulQ40vQ80` (lines 185-260). -/
def matmulQ40vQ80 {α : Type} [Zero α] [Add α] [Mul α] [IntCast α] (b : Build)
    (convertF16ToF32 : Nat → α) (a : MatmulThreadInfo α) : Except Fault (MatmulThreadInfo α) :=
  let w := a.weights.asQ40
  let input := a.input.asQ80
  if a.n % QK40 ≠ 0 then Except.error Fault.assertion else
  let n := a.n / QK40
  if b.neon then
    Except.ok (storeRows (matmulQ40vQ80NeonRow b convertF16ToF32 n w input) a)
  else
    Except.error Fault.notImplemented

/-! ## The dispatcher `matmul` (lines 269-299) -/

/-- The kernels. -/
inductive Kernel where
  | matmulF32
  | matmulF16
  | matmulQ40
  | matmulQ40vQ80
  deriving DecidableEq

/-- The kernel that `matmul` invokes for a format pair (lines 278-295), `none` when control
reaches the final `printf` and `exit`. -/
def matmulSelect (weightsFloatType inputFloatType : FloatType) : Option Kernel :=
  let first : Option Kernel :=
    if inputFloatType = FloatType.F32 then
      if weightsFloatType = FloatType.F32 then some Kernel.matmulF32
      else if weightsFloatType = FloatType.F16 then some Kernel.matmulF16
      else if weightsFloatType = FloatType.Q40 then some Kernel.matmulQ40
      else none
    else none
  match first with
  | some kernel => some kernel
  | none =>
    if inputFloatType = FloatType.Q80 ∧ weightsFloatType = FloatType.Q40 then
      some Kernel.matmulQ40vQ80
    else none

/-- One call of a kernel on the thread info `s`. -/
def runKernel {α : Type} [Zero α] [Add α] [Mul α] [IntCast α] (b : Build)
    (convertF16ToF32 : Nat → α) (kernel : Kernel) (s : MatmulThreadInfo α) :
    Except Fault (MatmulThreadInfo α) :=
  match kernel with
  | Kernel.matmulF32 => Except.ok (matmulF32 b s)
  | Kernel.matmulF16 => Except.ok (matmulF16 convertF16ToF32 s)
  | Kernel.matmulQ40 => matmulQ40 b convertF16ToF32 s
  | Kernel.matmulQ40vQ80 => matmulQ40vQ80 b convertF16ToF32 s

/-- The thread info that `matmul` fills in (lines 270-276). -/
def matmulInfo {α : Type} (output : Int → α) (input weights : Buffer α) (n : Nat) (d : Int)
    (nThreads threadIndex : Nat) : MatmulThreadInfo α :=
  { output := output, input := input, weights := weights, n := n,
    ds := matmulDs threadIndex d nThreads, de := matmulDe threadIndex d nThreads }

/-- The dispatcher `matmul` (lines 269-299): the memory after the call, or the fault that
ended the run. -/
def matmul {α : Type} [Zero α] [Add α] [Mul α] [IntCast α] (b : Build)
    (convertF16ToF32 : Nat → α) (weightsFloatType inputFloatType : FloatType)
    (output : Int → α) (input weights : Buffer α) (n : Nat) (d : Int)
    (nThreads threadIndex : Nat) : Except Fault (MatmulThreadInfo α) :=
  let s := matmulInfo output input weights n d nThreads threadIndex
  match matmulSelect weightsFloatType inputFloatType with
  | some kernel => runKernel b convertF16ToF32 kernel s
  | none => Except.error (Fault.unsupportedFloatTypes weightsFloatType inputFloatType)

/-- The entry `output[i]` after a call, `none` when the call did not return. -/
def outputAt {α : Type} (r : Except Fault (MatmulThreadInfo α)) (i : Int) : Option α :=
  match r with
  | Except.ok s => some (s.output i)
  | Except.error _ => none

/-! ## Elementwise primitives -/

/-- Portable body of `dotProduct` (lines 314-318). -/
def dotProductScalar {α : Type} [Zero α] [Add α] [Mul α] (a b : Int → α) (size : Nat) : α :=
  (List.range size).foldl (fun (sum : α) (i : Nat) => sum + a i * b i) 0

/-- The lane accumulators `fs` of the vectorized `dotProduct` after its loop
(lines 306-311). -/
def dotProductLanes {α : Type} [Zero α] [Add α] [Mul α] (a b : Int → α) (size : Nat) :
    F32x4 α :=
  forStep 0 size 4 (fun (i : Nat) (fs : F32x4 α) =>
    let fa := vld1q_f32 a i
    let fb := vld1q_f32 b i
    vmlaq_f32 fs fa fb) (vmovq_n_f32 0)

/-- Vectorized body of `dotProduct` (lines 304-312). -/
def dotProductNeon {α : Type} [Zero α] [Add α] [Mul α] (a b : Int → α) (size : Nat) : α :=
  vaddvq_f32 (dotProductLanes a b size)

/-- The function `dotProduct` (lines 301-320); `size` is a non-negative `int`. -/
def dotProduct {α : Type} [Zero α] [Add α] [Mul α] (bld : Build) (a b : Int → α)
    (size : Nat) : Except Fault α :=
  if size % 4 ≠ 0 then Except.error Fault.assertion else
  if bld.neon then Except.ok (dotProductNeon a b size)
  else Except.ok (dotProductScalar a b size)

/-- Portable search of the maximum in `softmax` (lines 24-29). -/
def softmaxMaxScalar {α : Type} [LinearOrder α] (x : Int → α) (size : Nat) : α :=
  (List.range (size - 1)).foldl (fun (maxVal : α) (i : Nat) =>
    if x (1 + (i : Int)) > maxVal then x (1 + (i : Int)) else maxVal) (x 0)

/-- Vectorized search of the maximum in `softmax` (lines 15-21): the loop runs at
`i = 4, 8, ...` while `i < size`. -/
def softmaxMaxNeon {α : Type} [LinearOrder α] (x : Int → α) (size : Nat) : α :=
  let fmaxv := forStep 4 size 4 (fun (i : Nat) (fmaxv : F32x4 α) =>
    let fs := vld1q_f32 x i
    vmaxq_f32 fmaxv fs) (vld1q_f32 x 0)
  vmaxvq_f32 fmaxv

/-- The loop "exp and sum" of `softmax` (lines 32-36): the buffer and `sum` after it. -/
def softmaxExpSum {α : Type} [Zero α] [Add α] [Sub α] (expf : α → α) (maxVal : α)
    (x : Int → α) (size : Nat) : (Int → α) × α :=
  (List.range size).foldl (fun (st : (Int → α) × α) (i : Nat) =>
    let x1 := Function.update st.1 (i : Int) (expf (st.1 i - maxVal))
    (x1, st.2 + x1 i)) (x, 0)

/-- The loop "normalize" of `softmax` (lines 38-40). -/
def softmaxNormalize {α : Type} [Div α] (x : Int → α) (sum : α) (size : Nat) : Int → α :=
  (List.range size).foldl (fun (x : Int → α) (i : Nat) =>
    Function.update x (i : Int) (x i / sum)) x

/-- The part of `softmax` after the maximum is found (lines 31-40). -/
def softmaxFrom {α : Type} [Zero α] [Add α] [Sub α] [Div α] (expf : α → α) (maxVal : α)
    (x : Int → α) (size : Nat) : Int → α :=
  let st := softmaxExpSum expf maxVal x size
  softmaxNormalize st.1 st.2 size

/-- The function `softmax` (lines 12-41): the buffer `x` after the call; `expf` is the
library function and `size` a non-negative `int`. -/
def softmax {α : Type} [LinearOrderedField α] (bld : Build) (expf : α → α) (x : Int → α)
    (size : Nat) : Int → α :=
  let maxVal := if bld.neon then softmaxMaxNeon x size else softmaxMaxScalar x size
  softmaxFrom expf maxVal x size

/-! ## Statements and concrete inputs -/

/-- What a call leaves unchanged: the `input` and `weights` buffers and every `output[i]`
with `i` outside `[ds, de)`. -/
def FrameOf {α : Type} (a s : MatmulThreadInfo α) : Prop :=
  s.input = a.input ∧ s.weights = a.weights ∧
    ∀ i : Int, ¬ (a.ds ≤ i ∧ i < a.de) → s.output i = a.output i

/-- The four format pairs `(weights, input)` for which `matmul` has a kernel. -/
def SupportedPair (weightsFloatType inputFloatType : FloatType) : Prop :=
  (weightsFloatType = FloatType.F32 ∧ inputFloatType = FloatType.F32) ∨
  (weightsFloatType = FloatType.F16 ∧ inputFloatType = FloatType.F32) ∨
  (weightsFloatType = FloatType.Q40 ∧ inputFloatType = FloatType.F32) ∨
  (weightsFloatType = FloatType.Q40 ∧ inputFloatType = FloatType.Q80)

/-- The remainder rows go to the first threads: thread `t` owns `⌈d / threadCount⌉` rows when
`t < d mod threadCount` and `⌊d / threadCount⌋` rows otherwise. -/
def RemainderToFirstThreads (d threadCount : Nat) : Prop :=
  ∀ t, t < threadCount →
    matmulRows t (d : Int) threadCount =
      if t < d % threadCount then ((d / threadCount + 1 : Nat) : Int)
      else ((d / threadCount : Nat) : Int)

/-- A build without `__ARM_NEON`. -/
def portableBuild : Build := { neon := false, dotprod := false }

/-- A build with `__ARM_NEON` and without `__ARM_FEATURE_DOTPROD`. -/
def neonBuild : Build := { neon := true, dotprod := false }

/-- A 4-bit block for the examples: scale bits `d`, bytes `qs[i] = 16 * hi + lo`. -/
def exampleQ40 (d lo hi : Nat) : BlockQ40 := { d := d, qs := fun _ => 16 * hi + lo }

/-- An 8-bit block for the examples: scale bits `d`, every magnitude `q`. -/
def exampleQ80 (d : Nat) (q : Int) : BlockQ80 := { d := d, qs := fun _ => q }

/-- Example memory over the integers: the floats are `f i`, the half floats and the
blocks are built from the index. -/
def exampleBuffer (f : Int → Int) : Buffer Int :=
  { asF32 := f
    asF16 := fun i => i.toNat
    asQ40 := fun i => exampleQ40 (i.toNat + 1) 9 10
    asQ80 := fun i => exampleQ80 (i.toNat + 1) 1 }

/-- The conversion `convertF16ToF32` of the examples: the bits read as a number. -/
def exampleConvert : Nat → Int := fun bits => (bits : Int)

/-- A positive, strictly increasing function on the rationals that stands for `expf` in the
examples. -/
def exampleExpf : ℚ → ℚ := fun q => if q < 0 then 1 / (1 - q) else 1 + q

/-- The dequantized weight row `r` of an `n`-column 4-bit matrix, as the claim words it:
the row is the `n / 32` consecutive blocks from block `r * (n / 32)` on, and block `b`
expands to the elements `32 b + i = (lowNibble(qs[i]) - 8) * scale` and
`32 b + 16 + i = (highNibble(qs[i]) - 8) * scale` for `i < 16`. -/
def dequantizedRow {α : Type} [Mul α] [IntCast α] (convertF16ToF32 : Nat → α)
    (w : Int → BlockQ40) (n : Nat) (r : Int) (j : Nat) : α :=
  let blk := w (r * ((n / 32 : Nat) : Int) + ((j / 32 : Nat) : Int))
  let i := j % 32
  if i < 16 then (((lowNibble (blk.qs i) : Int) - 8 : Int) : α) * convertF16ToF32 blk.d
  else (((highNibble (blk.qs (i - 16)) : Int) - 8 : Int) : α) * convertF16ToF32 blk.d

/-- The integer sum `S` of one block pair, as the claim words it: the sum over `i < 16` of
`(lowNibble(qs4[i]) - 8) * qs8[i] + (highNibble(qs4[i]) - 8) * qs8[i + 16]`. -/
def blockIntSum (x : BlockQ40) (y : BlockQ80) : Int :=
  ∑ i in Finset.range 16, (((lowNibble (x.qs i) : Int) - 8) * y.qs i
    + ((highNibble (x.qs i) : Int) - 8) * y.qs (i + 16))

/-- The one-block-at-a-time value of row `r`, as the claim words it: the sum over the
`n / 32` block positions `b` of `scale4(w[r * (n/32) + b]) * scale8(input[b]) * S_b`. -/
def blockwiseRow {α : Type} [CommRing α] (convertF16ToF32 : Nat → α) (w : Int → BlockQ40)
    (input : Int → BlockQ80) (n : Nat) (r : Int) : α :=
  ∑ b in Finset.range (n / 32),
    convertF16ToF32 (w (r * ((n / 32 : Nat) : Int) + (b : Int))).d
      * convertF16ToF32 (input (b : Int)).d
      * ((blockIntSum (w (r * ((n / 32 : Nat) : Int) + (b : Int))) (input (b : Int)) : Int) : α)

/-- Example memory that agrees with `exampleBuffer` on block 0 and holds other 8-bit
blocks behind it. -/
def exampleBufferBehind (f : Int → Int) : Buffer Int :=
  { asF32 := f
    asF16 := fun i => i.toNat
    asQ40 := fun i => exampleQ40 (i.toNat + 1) 9 10
    asQ80 := fun i => if i = 0 then exampleQ80 1 1 else exampleQ80 5 3 }

/-- The contribution of block position `b` to row `d` in the vectorized `matmulQ40vQ80`: the
four `int32_t` lanes of the block pair, converted to `float`, summed and multiplied by the
product of the two scales. -/
def blockTerm {α : Type} [Add α] [Mul α] [IntCast α] (bld : Build) (convertF16ToF32 : Nat → α)
    (w : Int → BlockQ40) (input : Int → BlockQ80) (n : Nat) (d : Int) (b : Nat) : α :=
  vaddvq_f32 (vcvtq_f32_s32 (blockDot bld (w (d * n + b)) (input b)))
    * (convertF16ToF32 (w (d * n + b)).d * convertF16ToF32 (input b).d)

/-! ## `rms` and `rmsnorm` (lines 43-90) -/

/-- Portable sum of squares in `rms` (lines 55-58). -/
def rmsSumScalar {α : Type} [Zero α] [Add α] [Mul α] (x : Int → α) (size : Nat) : α :=
  (List.range size).foldl (fun (ss : α) (j : Nat) => ss + x j * x j) 0

/-- The lane accumulators `fs` of the vectorized `rms` after its loop (lines 48-52). -/
def rmsLanes {α : Type} [Zero α] [Add α] [Mul α] (x : Int → α) (size : Nat) : F32x4 α :=
  forStep 0 size 4 (fun (j : Nat) (fs : F32x4 α) =>
    let fsq := vld1q_f32 x j
    vmlaq_f32 fs fsq fsq) (vmovq_n_f32 0)

/-- Vectorized sum of squares in `rms` (lines 47-53). -/
def rmsSumNeon {α : Type} [Zero α] [Add α] [Mul α] (x : Int → α) (size : Nat) : α :=
  vaddvq_f32 (rmsLanes x size)

/-- The function `rms` (lines 43-64); `sqrtf` is the library function, `size` a
non-negative `int` and `1e-5f` the constant `1 / 100000`. -/
def rms {α : Type} [Field α] (bld : Build) (sqrtf : α → α) (x : Int → α) (size : Nat) :
    Except Fault α :=
  if size % 4 ≠ 0 then Except.error Fault.assertion else
  let ss := if bld.neon then rmsSumNeon x size else rmsSumScalar x size
  let ss := ss / (size : α)
  let ss := ss + 1 / 100000
  let ss := 1 / sqrtf ss
  Except.ok ss

/-- The value `slice = size / nThreads` of `rmsnorm` (line 70): `size` is converted to
`unsigned int`, the quotient is unsigned and stored in an `int`. -/
def rmsnormSlice (size nThreads : Nat) : Int :=
  toInt32 (toUInt32 (size : Int) / nThreads)

/-- The value `start = threadIndex * slice` of `rmsnorm` (line 71), an unsigned product
stored in an `int`. -/
def rmsnormStart (size nThreads threadIndex : Nat) : Int :=
  toInt32 (threadIndex * toUInt32 (rmsnormSlice size nThreads) % 2 ^ 32)

/-- The value `end = start + slice` of `rmsnorm` (line 72). -/
def rmsnormEnd (size nThreads threadIndex : Nat) : Int :=
  rmsnormStart size nThreads threadIndex + rmsnormSlice size nThreads

/-- Portable loop of `rmsnorm` (lines 86-88). -/
def rmsnormScalar {α : Type} [Mul α] (o x : Int → α) (ms : α) (weight : Int → α)
    (start stop : Int) : Int → α :=
  forRows start stop (fun (j : Int) (o : Int → α) =>
    Function.update o j (weight j * (ms * x j))) o

/-- Intrinsic `vmulq_f32`: lane-wise product. -/
def vmulq_f32 {α : Type} [Mul α] (a b : F32x4 α) : F32x4 α :=
  ⟨a.l0 * b.l0, a.l1 * b.l1, a.l2 * b.l2, a.l3 * b.l3⟩

/-- Intrinsic `vst1q_f32(&p[j], v)`: stores the four lanes into `p[j], p[j+1], p[j+2], p[j+3]`. -/
def vst1q_f32 {α : Type} (p : Int → α) (j : Int) (v : F32x4 α) : Int → α :=
  Function.update (Function.update (Function.update (Function.update p j v.l0)
    (j + 1) v.l1) (j + 2) v.l2) (j + 3) v.l3

/-- The loop `for (int j = lo; j < hi; j += 4) body(j)` on `int` bounds: it runs at
`j = lo, lo + 4, ...` while `j < hi`, that is `⌈(hi - lo) / 4⌉` times. -/
def forStep4 {σ : Type} (lo hi : Int) (body : Int → σ → σ) (s : σ) : σ :=
  (List.range (((hi - lo).toNat + 3) / 4)).foldl
    (fun (s : σ) (i : Nat) => body (lo + 4 * (i : Int)) s) s

/-- Vectorized loop of `rmsnorm` (lines 75-84). -/
def rmsnormNeon {α : Type} [Mul α] (o x : Int → α) (ms : α) (weight : Int → α)
    (start stop : Int) : Int → α :=
  let fss := vmovq_n_f32 ms
  forStep4 start stop (fun (j : Int) (o : Int → α) =>
    let fw := vld1q_f32 weight j
    let fx := vld1q_f32 x j
    let fx := vmulq_f32 fx fw
    let fx := vmulq_f32 fx fss
    vst1q_f32 o j fx) o

/-- The function `rmsnorm` (lines 66-90): the buffer `o` after the call, or the assertion
fault; `size` is a non-negative `int`. -/
def rmsnorm {α : Type} [Mul α] (bld : Build) (o x : Int → α) (ms : α) (weight : Int → α)
    (size nThreads threadIndex : Nat) : Except Fault (Int → α) :=
  if size % 4 ≠ 0 then Except.error Fault.assertion else
  if toUInt32 (size : Int) % nThreads ≠ 0 then Except.error Fault.assertion else
  let slice := rmsnormSlice size nThreads
  let start := rmsnormStart size nThreads threadIndex
  let stop := start + slice
  if bld.neon then Except.ok (rmsnormNeon o x ms weight start stop)
  else Except.ok (rmsnormScalar o x ms weight start stop)

/-- A positive, increasing function on the rationals that stands for `sqrtf` in the
examples. -/
def exampleSqrtf : ℚ → ℚ := fun q => (q + 1) / 2

/-- Example memory over the rationals: zeros as floats, the same block everywhere. -/
def exampleBufferQ : Buffer ℚ :=
  { asF32 := fun _ => 0
    asF16 := fun _ => 0
    asQ40 := fun _ => exampleQ40 1 9 10
    asQ80 := fun _ => exampleQ80 1 1 }

/-- Example thread info over the rationals: two rows of 512 columns, one thread. -/
def exampleInfoQ : MatmulThreadInfo ℚ :=
  matmulInfo (fun _ => 0) exampleBufferQ exampleBufferQ 512 2 1 0

/-- The entry `o[i]` after a call of `rmsnorm`, `none` when the call did not return. -/
def bufferAt {α : Type} (r : Except Fault (Int → α)) (i : Int) : Option α :=
  match r with
  | Except.ok o => some (o i)
  | Except.error _ => none

/-- Example memory for `softmax` with `size = 2`: the vector `0, 1`, followed in memory by
the value `behind` and by zeros. -/
def exampleVector (behind : Int) : Int → Int :=
  fun i => if i = 1 then 1 else if i = 2 then behind else 0

/-- The signed 4-bit magnitude in the low nibble of byte `i` of a block: nibble minus 8. -/
def q4Low (x : BlockQ40) (i : Nat) : Int := (lowNibble (x.qs i) : Int) - 8

/-- The signed 4-bit magnitude in the high nibble of byte `i` of a block: nibble minus 8. -/
def q4High (x : BlockQ40) (i : Nat) : Int := (highNibble (x.qs i) : Int) - 8

/-- The total of the four `int32_t` lanes of a vector. -/
def laneTotal (p : Nat → Int) : Int := p 0 + p 1 + p 2 + p 3

/-- A model of `expf` with underflow for the examples: `0` below `-100`, positive and
increasing from there on (the float function returns `0` below about `-104`). -/
def underflowExpf : ℚ → ℚ :=
  fun q => if q < -100 then 0 else if q < 0 then 1 / (1 - q) else 1 + q

/-- Example memory for `softmax` with `size = 2` over the rationals: the vector `0, 1`,
followed in memory by the value `behind` and by zeros. -/
def exampleVectorQ (behind : ℚ) : Int → ℚ :=
  fun i => if i = 1 then 1 else if i = 2 then behind else 0

/-! ## Properties of the thread partition -/

theorem toUInt32_of_nonneg {d : Int} (h0 : 0 ≤ d) (h1 : d < 2 ^ 32) :
    toUInt32 d = d.toNat := by
  unfold toUInt32
  rw [Int.emod_eq_of_lt h0 h1]

theorem toInt32_of_lt {v : Nat} (h : v < 2 ^ 31) : toInt32 v = (v : Int) := by
  unfold toInt32
  have : v % 2 ^ 32 = v := Nat.mod_eq_of_lt (by omega)
  rw [this, if_pos h]

/-- Without wraparound `ds` is the floor of `threadIndex * d / nThreads`. -/
theorem matmulDs_eq (t : Nat) (D T : Nat) (hT : 1 ≤ T) (hD : D < 2 ^ 31) (ht : t ≤ T)
    (hov : T * D < 2 ^ 32) : matmulDs t (D : Int) T = ((t * D / T : Nat) : Int) := by
  unfold matmulDs
  have hu : toUInt32 (D : Int) = D := by
    rw [toUInt32_of_nonneg (by positivity) (by exact_mod_cast (by omega : D < 2 ^ 32))]
    simp
  have hle : t * D ≤ T * D := Nat.mul_le_mul_right D ht
  rw [hu, Nat.mod_eq_of_lt (by omega)]
  apply toInt32_of_lt
  have : t * D / T ≤ D := by
    calc t * D / T ≤ T * D / T := Nat.div_le_div_right hle
      _ = D := by rw [Nat.mul_div_cancel_left D (by omega)]
  omega

theorem matmulDe_eq (t : Nat) (D T : Nat) (hT : 1 ≤ T) (hT32 : T < 2 ^ 32) (hD : D < 2 ^ 31)
    (ht : t < T) (hov : T * D < 2 ^ 32) :
    matmulDe t (D : Int) T = (((t + 1) * D / T : Nat) : Int) := by
  have h := matmulDs_eq (t + 1) D T hT hD ht hov
  unfold matmulDs at h
  unfold matmulDe
  rw [Nat.mod_eq_of_lt (by omega : t + 1 < 2 ^ 32)]
  exact h

/-- A sequence of cut points starting at or below `r` and ending above `r` has a
segment that contains `r`. -/
theorem exists_segment (f : Nat → Nat) (r : Nat) (h0 : f 0 ≤ r) :
    ∀ T, r < f T → ∃ t, t < T ∧ f t ≤ r ∧ r < f (t + 1) := by
  intro T
  induction T with
  | zero => intro h; omega
  | succ k ih =>
    intro h
    by_cases hk : r < f k
    · obtain ⟨t, ht, h1, h2⟩ := ih hk
      exact ⟨t, by omega, h1, h2⟩
    · exact ⟨k, by omega, by omega, h⟩

/-- The floor cut points `t * D / T` are monotone in `t`. -/
theorem cut_mono (D T : Nat) {s t : Nat} (h : s ≤ t) : s * D / T ≤ t * D / T :=
  Nat.div_le_div_right (Nat.mul_le_mul_right D h)

/-- Without wraparound the partition covers `[0, D)` exactly once. -/
theorem partitionCovers_of_no_wrap (D T : Nat) (hT : 1 ≤ T) (hT32 : T < 2 ^ 32)
    (hD : D < 2 ^ 31) (hov : T * D < 2 ^ 32) : PartitionCovers (D : Int) T := by
  refine ⟨?_, ?_, ?_, ?_⟩
  · rw [matmulDs_eq 0 D T hT hD (by omega) hov]; simp
  · intro t ht
    rw [matmulDe_eq t D T hT hT32 hD (by omega) hov, matmulDs_eq (t + 1) D T hT hD (by omega) hov]
  · rw [matmulDe_eq (T - 1) D T hT hT32 hD (by omega) hov]
    have : T - 1 + 1 = T := by omega
    rw [this, Nat.mul_div_cancel_left D (by omega)]
  · intro r hr0 hrD
    obtain ⟨r, rfl⟩ := Int.eq_ofNat_of_zero_le hr0
    have hrD : r < D := by exact_mod_cast hrD
    have hlast : r < T * D / T := by rw [Nat.mul_div_cancel_left D (by omega)]; exact hrD
    obtain ⟨t, htT, h1, h2⟩ := exists_segment (fun t => t * D / T) r (by simp) T hlast
    refine ⟨t, ⟨htT, ?_, ?_⟩, ?_⟩
    · rw [matmulDs_eq t D T hT hD (by omega) hov]; exact_mod_cast h1
    · rw [matmulDe_eq t D T hT hT32 hD htT hov]; exact_mod_cast h2
    · rintro u ⟨huT, hu1, hu2⟩
      rw [matmulDs_eq u D T hT hD (by omega) hov] at hu1
      rw [matmulDe_eq u D T hT hT32 hD huT hov] at hu2
      have hu1 : u * D / T ≤ r := by exact_mod_cast hu1
      have hu2 : r < (u + 1) * D / T := by exact_mod_cast hu2
      have h1 : t * D / T ≤ r := h1
      have h2 : r < (t + 1) * D / T := h2
      rcases Nat.lt_trichotomy u t with hlt | heq | hgt
      · have := cut_mono D T (show u + 1 ≤ t by omega)
        omega
      · exact heq
      · have := cut_mono D T (show t + 1 ≤ u by omega)
        omega

/-- C1 (as stated, refuted): with `d = 2 ^ 30` rows and 4 threads the product
`(threadIndex + 1) * d` of the last thread wraps to `0` in 32-bit unsigned arithmetic, so
the last range ends at `0` and the ranges do not cover `[0, d)`. -/
theorem C1_partition_wraps : ¬ PartitionCovers 1073741824 4 := by
  intro h
  have h3 := h.2.2.1
  revert h3
  decide

/-- C1 (amended): for every output dimension `0 < d < 2 ^ 31` and every `threadCount` with
`1 ≤ threadCount ≤ d` and `threadCount * d < 2 ^ 32` (no wraparound of the 32-bit unsigned
product), the row ranges `[ds, de)` of the threads `0 .. threadCount - 1` cover `[0, d)`
exactly once. -/
theorem C1_partition_covers (d : Int) (threadCount : Nat) (hd : 0 < d) (hd31 : d < 2 ^ 31)
    (h1 : 1 ≤ threadCount) (hle : (threadCount : Int) ≤ d)
    (hov : (threadCount : Int) * d < 2 ^ 32) : PartitionCovers d threadCount := by
  obtain ⟨D, rfl⟩ := Int.eq_ofNat_of_zero_le hd.le
  have hD : D < 2 ^ 31 := by exact_mod_cast hd31
  have hTD : threadCount ≤ D := by exact_mod_cast hle
  have hov : threadCount * D < 2 ^ 32 := by exact_mod_cast hov
  exact partitionCovers_of_no_wrap D threadCount h1 (by omega) hD hov

theorem C1_partition_covers_witness : PartitionCovers 5 2 :=
  C1_partition_covers 5 2 (by decide) (by decide) (by decide) (by decide) (by decide)

/-! ## The row loop of the kernels -/

theorem forRows_aux {α : Type} (val : Int → α) (lo : Int) (a : MatmulThreadInfo α) (m : Nat) :
    (List.range m).foldl (fun (s : MatmulThreadInfo α) (i : Nat) =>
        ({ s with output := Function.update s.output (lo + (i : Int)) (val (lo + (i : Int))) } :
          MatmulThreadInfo α)) a =
      { a with output := fun i => if lo ≤ i ∧ i < lo + (m : Int) then val i else a.output i } := by
  obtain ⟨o, inp, w, n, ds, de⟩ := a
  induction m with
  | zero =>
    simp only [List.range_zero, List.foldl_nil]
    congr
    funext i
    rw [if_neg]
    omega
  | succ k ih =>
    rw [List.range_succ, List.foldl_append, ih]
    simp only [List.foldl_cons, List.foldl_nil]
    congr
    funext i
    by_cases h : i = lo + (k : Int)
    · subst h
      rw [Function.update_same, if_pos]
      constructor <;> omega
    · rw [Function.update_noteq h]
      by_cases h2 : lo ≤ i ∧ i < lo + (k : Int)
      · rw [if_pos h2, if_pos]
        constructor <;> omega
      · rw [if_neg h2, if_neg]
        push_cast
        omega

/-- The row loop that stores `val d` into `output[d]` leaves `val` on the rows of
`[ds, de)` and changes nothing else. -/
theorem storeRows_eq {α : Type} (val : Int → α) (a : MatmulThreadInfo α) :
    storeRows val a =
      { a with output := fun i => if a.ds ≤ i ∧ i < a.de then val i else a.output i } := by
  unfold storeRows forRows
  rw [forRows_aux]
  congr
  funext i
  by_cases h : a.ds ≤ i ∧ i < a.de
  · rw [if_pos h, if_pos]
    constructor <;> omega
  · rw [if_neg h, if_neg]
    omega

/-! ## Sums and accumulation loops -/

/-- An accumulation loop over `0 .. n - 1` adds the sum of its terms to the start value. -/
theorem foldl_add_eq_sum {α : Type} [AddCommMonoid α] (f : Nat → α) (n : Nat) (init : α) :
    (List.range n).foldl (fun (acc : α) (j : Nat) => acc + f j) init
      = init + ∑ j in Finset.range n, f j := by
  induction n with
  | zero => simp
  | succ k ih =>
    rw [List.range_succ, List.foldl_append, ih, Finset.sum_range_succ]
    simp only [List.foldl_cons, List.foldl_nil]
    rw [add_assoc]

/-- A sum over `4 * m` indices, taken four at a time. -/
theorem sum_range_four_mul {α : Type} [AddCommMonoid α] (f : Nat → α) (m : Nat) :
    ∑ j in Finset.range (4 * m), f j
      = ∑ i in Finset.range m, (f (4 * i) + f (4 * i + 1) + f (4 * i + 2) + f (4 * i + 3)) := by
  induction m with
  | zero => simp
  | succ k ih =>
    rw [Finset.sum_range_succ, ← ih, show 4 * (k + 1) = 4 * k + 1 + 1 + 1 + 1 by ring]
    simp only [Finset.sum_range_succ]
    abel

/-- The four lane accumulators after `m` fused multiply-adds. -/
theorem foldl_vfmaq {α : Type} [Semiring α] (P Q : Nat → F32x4 α) (m : Nat) (u : F32x4 α) :
    (List.range m).foldl (fun (u : F32x4 α) (i : Nat) => vfmaq_f32 u (P i) (Q i)) u
      = ⟨u.l0 + ∑ i in Finset.range m, (P i).l0 * (Q i).l0,
         u.l1 + ∑ i in Finset.range m, (P i).l1 * (Q i).l1,
         u.l2 + ∑ i in Finset.range m, (P i).l2 * (Q i).l2,
         u.l3 + ∑ i in Finset.range m, (P i).l3 * (Q i).l3⟩ := by
  induction m with
  | zero => simp
  | succ k ih =>
    rw [List.range_succ, List.foldl_append, ih]
    simp only [List.foldl_cons, List.foldl_nil, vfmaq_f32, Finset.sum_range_succ, add_assoc]

/-- The loop `for (j = 0; j < 4 * m; j += 4)` runs `m` times. -/
theorem forStep_four {σ : Type} (m : Nat) (body : Nat → σ → σ) (s : σ) :
    forStep 0 (4 * m) 4 body s
      = (List.range m).foldl (fun (s : σ) (i : Nat) => body (4 * i) s) s := by
  unfold forStep
  have h : (4 * m - 0 + (4 - 1)) / 4 = m := by omega
  rw [h]
  simp

/-- Horizontal sum of lane accumulators that started at zero: the sum over all indices. -/
theorem vaddvq_lanes {α : Type} [Semiring α] (f : Nat → α) (m : Nat) :
    vaddvq_f32 (⟨0 + ∑ i in Finset.range m, f (4 * i), 0 + ∑ i in Finset.range m, f (4 * i + 1),
        0 + ∑ i in Finset.range m, f (4 * i + 2), 0 + ∑ i in Finset.range m, f (4 * i + 3)⟩ :
        F32x4 α) = ∑ j in Finset.range (4 * m), f j := by
  rw [sum_range_four_mul]
  simp only [vaddvq_f32, zero_add, Finset.sum_add_distrib]
  abel

/-- Row value of the portable `matmulF32` as a sum. -/
theorem matmulF32ScalarRow_eq_sum {α : Type} [Semiring α] (w input : Int → α) (n : Nat)
    (d : Int) :
    matmulF32ScalarRow w input n d = ∑ j in Finset.range n, w (d * n + j) * input j := by
  unfold matmulF32ScalarRow
  rw [foldl_add_eq_sum (fun j => w (d * n + j) * input j)]
  simp

/-- Row value of the vectorized `matmulF32` as a sum, for `n` a multiple of 4. -/
theorem matmulF32NeonRow_eq_sum {α : Type} [CommSemiring α] (w input : Int → α) (n : Nat)
    (d : Int) (h4 : n % 4 = 0) :
    matmulF32NeonRow w input n d = ∑ j in Finset.range n, w (d * n + j) * input j := by
  obtain ⟨m, rfl⟩ : ∃ m, n = 4 * m := ⟨n / 4, by omega⟩
  unfold matmulF32NeonRow
  simp only []
  rw [forStep_four, foldl_vfmaq (fun i => vld1q_f32 input ((4 * i : Nat) : Int))
    (fun i => vld1q_f32 w (d * ((4 * m : Nat) : Int) + ((4 * i : Nat) : Int)))]
  simp only [vld1q_f32, vmovq_n_f32]
  rw [← vaddvq_lanes (fun j => w (d * ((4 * m : Nat) : Int) + (j : Int)) * input (j : Int))]
  congr 1
  simp only [F32x4.mk.injEq]
  refine ⟨?_, ?_, ?_, ?_⟩ <;> congr 1 <;> apply Finset.sum_congr rfl <;> intro i _ <;>
    push_cast <;> rw [mul_comm] <;> congr 2 <;> ring

/-! ## Frame of the kernels and of `matmul` -/

theorem storeRows_frame {α : Type} (val : Int → α) (a : MatmulThreadInfo α) :
    FrameOf a (storeRows val a) := by
  rw [storeRows_eq]
  refine ⟨rfl, rfl, ?_⟩
  intro i hi
  simp only [if_neg hi]

theorem storeRows_output {α : Type} (val : Int → α) (a : MatmulThreadInfo α) (r : Int)
    (h1 : a.ds ≤ r) (h2 : r < a.de) : (storeRows val a).output r = val r := by
  rw [storeRows_eq]
  simp only [if_pos (And.intro h1 h2)]

theorem runKernel_frame {α : Type} [Zero α] [Add α] [Mul α] [IntCast α] (b : Build)
    (cvt : Nat → α) (kernel : Kernel) (a s : MatmulThreadInfo α)
    (h : runKernel b cvt kernel a = Except.ok s) : FrameOf a s := by
  cases kernel with
  | matmulF32 =>
    simp only [runKernel, matmulF32, Except.ok.injEq] at h
    subst h
    split
    · exact storeRows_frame _ a
    · exact storeRows_frame _ a
  | matmulF16 =>
    simp only [runKernel, matmulF16, Except.ok.injEq] at h
    subst h
    exact storeRows_frame _ a
  | matmulQ40 =>
    simp only [runKernel, matmulQ40] at h
    split at h
    · cases h
    · split at h
      · split at h
        · cases h
        · cases h
          exact storeRows_frame _ a
      · cases h
        exact storeRows_frame _ a
  | matmulQ40vQ80 =>
    simp only [runKernel, matmulQ40vQ80] at h
    split at h
    · cases h
    · split at h
      · cases h
        exact storeRows_frame _ a
      · cases h

/-- C3: `matmul` writes only inside its own row range. For every build, every format
pairing and every thread, when the call returns, every `output[i]` with `i` outside
`[ds, de)` has the value it had before the call, and the `input` and `weights` buffers are
unchanged. -/
theorem C3_matmul_frame {α : Type} [Zero α] [Add α] [Mul α] [IntCast α] (b : Build)
    (convertF16ToF32 : Nat → α) (weightsFloatType inputFloatType : FloatType)
    (output : Int → α) (input weights : Buffer α) (n : Nat) (d : Int)
    (nThreads threadIndex : Nat) (s : MatmulThreadInfo α)
    (hret : matmul b convertF16ToF32 weightsFloatType inputFloatType output input weights n d
      nThreads threadIndex = Except.ok s) :
    s.input = input ∧ s.weights = weights ∧
      ∀ i : Int, ¬ (matmulDs threadIndex d nThreads ≤ i ∧ i < matmulDe threadIndex d nThreads) →
        s.output i = output i := by
  unfold matmul at hret
  simp only [] at hret
  split at hret
  · exact runKernel_frame b convertF16ToF32 _ _ s hret
  · cases hret
theorem C3_matmul_frame_witness :
    (matmulF32 portableBuild (matmulInfo (fun _ => 7) (exampleBuffer fun _ => 1)
        (exampleBuffer fun i => i + 1) 3 4 2 0)).input = (exampleBuffer fun _ => 1) ∧
    (matmulF32 portableBuild (matmulInfo (fun _ => 7) (exampleBuffer fun _ => 1)
        (exampleBuffer fun i => i + 1) 3 4 2 0)).weights = (exampleBuffer fun i => i + 1) ∧
      ∀ i : Int, ¬ (matmulDs 0 4 2 ≤ i ∧ i < matmulDe 0 4 2) →
        (matmulF32 portableBuild (matmulInfo (fun _ => 7) (exampleBuffer fun _ => 1)
          (exampleBuffer fun i => i + 1) 3 4 2 0)).output i = (fun _ => 7) i :=
  C3_matmul_frame portableBuild exampleConvert FloatType.F32 FloatType.F32 (fun _ => 7)
    (exampleBuffer fun _ => 1) (exampleBuffer fun i => i + 1) 3 4 2 0 _ rfl

/-! ## The dense-float kernel -/

/-- C2 (the code at the failing input): `n = 3`, the 2 x 3 matrix `1 2 3 / 4 5 6`, the
input `1 1 1`, one thread. The portable loop stores the inner product `output[0] = 6`. The
vectorized loop runs at `j = 0` and loads four lanes, so it also multiplies `w[3]`, the
first weight of the next row, with `input[3]`, the float behind the input: with a `1`
behind the input it stores `1 + 2 + 3 + 4 = 10`, with a `0` behind the same input it
stores `6`. -/
theorem C2_neon_reads_past_n :
    matmulDs 0 2 1 ≤ 0 ∧ (0 : Int) < matmulDe 0 2 1 ∧
    (∑ j in Finset.range 3, (exampleBuffer fun i => i + 1).asF32 (0 * ((3 : Nat) : Int) + (j : Int))
      * (exampleBuffer fun _ => 1).asF32 (j : Int)) = 6 ∧
    outputAt (matmul portableBuild exampleConvert FloatType.F32 FloatType.F32 (fun _ => 0)
      (exampleBuffer fun _ => 1) (exampleBuffer fun i => i + 1) 3 2 1 0) 0 = some 6 ∧
    outputAt (matmul neonBuild exampleConvert FloatType.F32 FloatType.F32 (fun _ => 0)
      (exampleBuffer fun _ => 1) (exampleBuffer fun i => i + 1) 3 2 1 0) 0 = some 10 ∧
    outputAt (matmul neonBuild exampleConvert FloatType.F32 FloatType.F32 (fun _ => 0)
      (exampleBuffer fun i => if i < 3 then 1 else 0) (exampleBuffer fun i => i + 1) 3 2 1 0) 0
      = some 6 := by
  refine ⟨by decide, by decide, by decide, by decide, by decide, by decide⟩

/-- Where the loops of `matmulF32` stay inside the row: `matmul` with dense-float weights and
dense-float input returns, and for every row `r` of the thread's range `[ds, de)` the entry
`output[r]` is the sum over `j < n` of `weights[r * n + j] * input[j]`, on the portable path
for every `n` (where it is accumulated from `0` in increasing `j`) and on the vectorized
path for every `n` that is a multiple of 4. -/
theorem matmulF32_inner_product {α : Type} [CommRing α] (b : Build)
    (convertF16ToF32 : Nat → α) (output : Int → α) (input weights : Buffer α) (n : Nat)
    (d : Int) (nThreads threadIndex : Nat) (hb : b.neon = false ∨ n % 4 = 0) :
    ∃ s, matmul b convertF16ToF32 FloatType.F32 FloatType.F32 output input weights n d
        nThreads threadIndex = Except.ok s ∧
      ∀ r : Int, matmulDs threadIndex d nThreads ≤ r → r < matmulDe threadIndex d nThreads →
        s.output r = ∑ j in Finset.range n, weights.asF32 (r * n + j) * input.asF32 j ∧
        (b.neon = false → s.output r = (List.range n).foldl
          (fun (val : α) (j : Nat) => val + weights.asF32 (r * n + j) * input.asF32 j) 0) := by
  refine ⟨matmulF32 b (matmulInfo output input weights n d nThreads threadIndex), rfl, ?_⟩
  intro r h1 h2
  unfold matmulF32
  by_cases hn : b.neon = true
  · rw [if_pos hn]
    have h4 : n % 4 = 0 := by
      rcases hb with h | h
      · rw [hn] at h; cases h
      · exact h
    refine ⟨?_, fun h => by rw [hn] at h; cases h⟩
    unfold matmulF32Neon
    simp only []
    rw [storeRows_output _ _ r h1 h2]
    exact matmulF32NeonRow_eq_sum _ _ n r h4
  · rw [if_neg hn]
    unfold matmulF32Scalar
    simp only []
    rw [storeRows_output _ _ r h1 h2]
    exact ⟨matmulF32ScalarRow_eq_sum _ _ n r, fun _ => rfl⟩

theorem matmulF32_inner_product_example :
    (matmulDs 0 4 2 = 0 ∧ matmulDe 0 4 2 = 2 ∧ matmulDs 1 4 2 = 2 ∧ matmulDe 1 4 2 = 4) ∧
    ∃ s, matmul portableBuild exampleConvert FloatType.F32 FloatType.F32 (fun _ => 0)
        (exampleBuffer fun i => 2 * i) (exampleBuffer fun i => i + 1) 256 4 2 1 = Except.ok s ∧
      ∀ r : Int, matmulDs 1 4 2 ≤ r → r < matmulDe 1 4 2 →
        s.output r = ∑ j in Finset.range 256,
          (exampleBuffer fun i => i + 1).asF32 (r * (256 : Nat) + j)
            * (exampleBuffer fun i => 2 * i).asF32 j ∧
        (portableBuild.neon = false → s.output r = (List.range 256).foldl
          (fun (val : Int) (j : Nat) =>
            val + (exampleBuffer fun i => i + 1).asF32 (r * (256 : Nat) + j)
              * (exampleBuffer fun i => 2 * i).asF32 j) 0) :=
  ⟨by decide,
   matmulF32_inner_product portableBuild exampleConvert (fun _ => 0)
    (exampleBuffer fun i => 2 * i) (exampleBuffer fun i => i + 1) 256 4 2 1 (Or.inl rfl)⟩

/-! ## Dispatch of `matmul` -/

theorem matmulQ40_returns_iff {α : Type} [Zero α] [Add α] [Mul α] [IntCast α] (b : Build)
    (cvt : Nat → α) (a : MatmulThreadInfo α) :
    ((∃ s, matmulQ40 b cvt a = Except.ok s) ↔ a.n % 256 = 0) ∧
      (a.n % 256 ≠ 0 → matmulQ40 b cvt a = Except.error Fault.assertion) := by
  have hk : QK40 * 8 = 256 := by decide
  unfold matmulQ40
  simp only [hk]
  by_cases h : a.n % 256 = 0
  · simp only [h, ne_eq, not_true_eq_false, if_false, true_iff, false_implies, and_true]
    by_cases hb : b.neon = true
    · simp [hb]
    · simp [hb]
  · simp [h]

theorem matmulQ40vQ80_returns_iff {α : Type} [Zero α] [Add α] [Mul α] [IntCast α] (b : Build)
    (cvt : Nat → α) (a : MatmulThreadInfo α) :
    ((∃ s, matmulQ40vQ80 b cvt a = Except.ok s) ↔ (b.neon = true ∧ a.n % 32 = 0)) ∧
      (a.n % 32 ≠ 0 → matmulQ40vQ80 b cvt a = Except.error Fault.assertion) ∧
      (b.neon = false → a.n % 32 = 0 →
        matmulQ40vQ80 b cvt a = Except.error Fault.notImplemented) := by
  have hk : QK40 = 32 := rfl
  unfold matmulQ40vQ80
  simp only [hk]
  by_cases h : a.n % 32 = 0
  · by_cases hb : b.neon = true
    · simp [h, hb]
    · simp [h, hb]
  · simp [h]

/-- C4 (as stated, refuted): `(Q40, F32)` is one of the four pairs, yet with `n = 32`, not
a multiple of the group size 256, the assertion of `matmulQ40` ends the run: `matmul` does
not return. -/
theorem C4_supported_pair_aborts :
    SupportedPair FloatType.Q40 FloatType.F32 ∧
    matmul portableBuild exampleConvert FloatType.Q40 FloatType.F32 (fun _ => 0)
      (exampleBuffer fun _ => 1) (exampleBuffer fun _ => 1) 32 1 1 0
      = Except.error Fault.assertion :=
  ⟨Or.inr (Or.inr (Or.inl ⟨rfl, rfl⟩)), rfl⟩

/-- C4 (amended): `matmul` ends in the fatal error "unsupported float types" if and only if
the pair `(weightsFloatType, inputFloatType)` is not one of `(F32,F32)`, `(F16,F32)`,
`(Q40,F32)`, `(Q40,Q80)`. For each of these four pairs exactly one kernel is invoked
(`matmulF32`, `matmulF16`, `matmulQ40`, `matmulQ40vQ80` respectively) and the outcome of
`matmul` is the outcome of that kernel: it returns for `(F32,F32)` and `(F16,F32)`, for
`(Q40,F32)` exactly when `n` is a multiple of 256, and for `(Q40,Q80)` exactly when the build
has the vector capability and `n` is a multiple of 32; otherwise the size assertion of the
kernel ends the run, and on a build without the vector capability a `(Q40,Q80)` request
with `n` a multiple of 32 is fatal too. -/
theorem C4_matmul_dispatch {α : Type} [Zero α] [Add α] [Mul α] [IntCast α] (b : Build)
    (convertF16ToF32 : Nat → α) (weightsFloatType inputFloatType : FloatType)
    (output : Int → α) (input weights : Buffer α) (n : Nat) (d : Int)
    (nThreads threadIndex : Nat) :
    (matmul b convertF16ToF32 weightsFloatType inputFloatType output input weights n d nThreads
        threadIndex = Except.error (Fault.unsupportedFloatTypes weightsFloatType inputFloatType)
      ↔ ¬ SupportedPair weightsFloatType inputFloatType) ∧
    (matmulSelect weightsFloatType inputFloatType = none
      ↔ ¬ SupportedPair weightsFloatType inputFloatType) ∧
    (matmulSelect FloatType.F32 FloatType.F32 = some Kernel.matmulF32 ∧
      matmul b convertF16ToF32 FloatType.F32 FloatType.F32 output input weights n d nThreads
        threadIndex
        = Except.ok (matmulF32 b (matmulInfo output input weights n d nThreads threadIndex))) ∧
    (matmulSelect FloatType.F16 FloatType.F32 = some Kernel.matmulF16 ∧
      matmul b convertF16ToF32 FloatType.F16 FloatType.F32 output input weights n d nThreads
        threadIndex
        = Except.ok (matmulF16 convertF16ToF32
            (matmulInfo output input weights n d nThreads threadIndex))) ∧
    (matmulSelect FloatType.Q40 FloatType.F32 = some Kernel.matmulQ40 ∧
      matmul b convertF16ToF32 FloatType.Q40 FloatType.F32 output input weights n d nThreads
        threadIndex
        = matmulQ40 b convertF16ToF32 (matmulInfo output input weights n d nThreads threadIndex) ∧
      ((∃ s, matmul b convertF16ToF32 FloatType.Q40 FloatType.F32 output input weights n d
          nThreads threadIndex = Except.ok s) ↔ n % 256 = 0) ∧
      (n % 256 ≠ 0 → matmul b convertF16ToF32 FloatType.Q40 FloatType.F32 output input weights
          n d nThreads threadIndex = Except.error Fault.assertion)) ∧
    (matmulSelect FloatType.Q40 FloatType.Q80 = some Kernel.matmulQ40vQ80 ∧
      matmul b convertF16ToF32 FloatType.Q40 FloatType.Q80 output input weights n d nThreads
        threadIndex
        = matmulQ40vQ80 b convertF16ToF32
            (matmulInfo output input weights n d nThreads threadIndex) ∧
      ((∃ s, matmul b convertF16ToF32 FloatType.Q40 FloatType.Q80 output input weights n d
          nThreads threadIndex = Except.ok s) ↔ (b.neon = true ∧ n % 32 = 0)) ∧
      (n % 32 ≠ 0 → matmul b convertF16ToF32 FloatType.Q40 FloatType.Q80 output input weights
          n d nThreads threadIndex = Except.error Fault.assertion) ∧
      (b.neon = false → n % 32 = 0 →
        matmul b convertF16ToF32 FloatType.Q40 FloatType.Q80 output input weights n d nThreads
          threadIndex = Except.error Fault.notImplemented)) := by
  refine ⟨?_, ?_, ⟨rfl, rfl⟩, ⟨rfl, rfl⟩, ⟨rfl, rfl, ?_, ?_⟩, ⟨rfl, rfl, ?_, ?_, ?_⟩⟩
  · cases weightsFloatType <;> cases inputFloatType <;>
      simp [matmul, matmulSelect, SupportedPair, runKernel, matmulQ40, matmulQ40vQ80] <;>
      (repeat' split) <;> simp
  · cases weightsFloatType <;> cases inputFloatType <;> simp [matmulSelect, SupportedPair]
  · exact (matmulQ40_returns_iff b convertF16ToF32
      (matmulInfo output input weights n d nThreads threadIndex)).1
  · exact (matmulQ40_returns_iff b convertF16ToF32
      (matmulInfo output input weights n d nThreads threadIndex)).2
  · exact (matmulQ40vQ80_returns_iff b convertF16ToF32
      (matmulInfo output input weights n d nThreads threadIndex)).1
  · exact (matmulQ40vQ80_returns_iff b convertF16ToF32
      (matmulInfo output input weights n d nThreads threadIndex)).2.1
  · exact (matmulQ40vQ80_returns_iff b convertF16ToF32
      (matmulInfo output input weights n d nThreads threadIndex)).2.2

/-! ## Row counts of the threads -/

/-- Adding `D` to a numerator raises the quotient by `D / T`, and by one more exactly when the
two remainders together reach `T`. -/
theorem add_div_split (a D T : Nat) (hT : 0 < T) :
    (a + D) / T = a / T + D / T + (if T ≤ a % T + D % T then 1 else 0) := by
  rw [Nat.add_div hT]

/-- Without wraparound a thread owns `⌊d / T⌋` rows, and one more exactly when the
remainders of `t * d` and of `d` together reach `T`. -/
theorem matmulRows_eq (t D T : Nat) (hT : 1 ≤ T) (hT32 : T < 2 ^ 32) (hD : D < 2 ^ 31)
    (ht : t < T) (hov : T * D < 2 ^ 32) :
    matmulRows t (D : Int) T
      = ((D / T + (if T ≤ (t * D) % T + D % T then 1 else 0) : Nat) : Int) := by
  unfold matmulRows
  rw [matmulDe_eq t D T hT hT32 hD ht hov, matmulDs_eq t D T hT hD (by omega) hov]
  have h : (t + 1) * D = t * D + D := by ring
  rw [h, add_div_split (t * D) D T (by omega)]
  push_cast
  ring

/-- The row counts of all threads add up to `d`. -/
theorem sum_cut_sub (D T : Nat) (hT : 1 ≤ T) :
    ∑ t in Finset.range T, ((t + 1) * D / T - t * D / T) = D := by
  rw [Finset.sum_range_tsub (f := fun t => t * D / T)]
  · simp only [zero_mul, Nat.zero_div, Nat.sub_zero]
    exact Nat.mul_div_cancel_left D (by omega)
  · intro s t h
    exact cut_mono D T h

/-- The number of threads that own one row more than `⌊d / T⌋` is `d mod T`. -/
theorem card_extra_rows (D T : Nat) (hT : 1 ≤ T) :
    (Finset.filter (fun t => T ≤ (t * D) % T + D % T) (Finset.range T)).card = D % T := by
  have hsum := sum_cut_sub D T hT
  have hterm : ∀ t, (t + 1) * D / T - t * D / T
      = D / T + (if T ≤ (t * D) % T + D % T then 1 else 0) := by
    intro t
    have h : (t + 1) * D = t * D + D := by ring
    rw [h, add_div_split (t * D) D T (by omega), add_assoc, Nat.add_sub_cancel_left]
  simp only [hterm] at hsum
  rw [Finset.sum_add_distrib, Finset.sum_const, Finset.card_range, smul_eq_mul,
    Finset.sum_boole] at hsum
  have hdm := Nat.div_add_mod D T
  simp only [Nat.cast_id] at hsum
  omega

/-- C5 (as stated, refuted): with `d = 5` rows and 2 threads the remainder is 1, yet
thread 0 owns `⌊5 / 2⌋ = 2` rows (rows 0..1) and thread 1 owns `⌈5 / 2⌉ = 3` rows. -/
theorem C5_first_thread_owns_floor :
    ¬ RemainderToFirstThreads 5 2 ∧ matmulRows 0 5 2 = 2 ∧ matmulRows 1 5 2 = 3 := by
  refine ⟨?_, by decide, by decide⟩
  intro h
  have h0 := h 0 (by decide)
  revert h0
  decide

/-- C5 (amended): for every `0 ≤ d < 2 ^ 31` and `threadCount ≥ 1` with
`threadCount * d < 2 ^ 32` and `d` not divisible by `threadCount`, every thread owns
`⌈d / threadCount⌉` or `⌊d / threadCount⌋` rows, exactly `d mod threadCount` of the threads
own `⌈d / threadCount⌉` rows, and these are the threads for which the remainder of
`threadIndex * d` plus the remainder of `d` reaches `threadCount` (the last thread is one of
them), not the first `d mod threadCount` threads. -/
theorem C5_remainder_rows (d threadCount : Nat) (hT : 1 ≤ threadCount)
    (hT32 : threadCount < 2 ^ 32) (hd : d < 2 ^ 31) (hov : threadCount * d < 2 ^ 32)
    (hrem : d % threadCount ≠ 0) :
    (∀ t, t < threadCount →
      (matmulRows t (d : Int) threadCount = ((d / threadCount + 1 : Nat) : Int)
        ↔ threadCount ≤ (t * d) % threadCount + d % threadCount) ∧
      (matmulRows t (d : Int) threadCount = ((d / threadCount : Nat) : Int)
        ↔ ¬ threadCount ≤ (t * d) % threadCount + d % threadCount)) ∧
    (Finset.filter (fun t => matmulRows t (d : Int) threadCount
        = ((d / threadCount + 1 : Nat) : Int)) (Finset.range threadCount)).card
      = d % threadCount ∧
    matmulRows (threadCount - 1) (d : Int) threadCount = ((d / threadCount + 1 : Nat) : Int) := by
  have hrow : ∀ t, t < threadCount →
      (matmulRows t (d : Int) threadCount = ((d / threadCount + 1 : Nat) : Int)
        ↔ threadCount ≤ (t * d) % threadCount + d % threadCount) ∧
      (matmulRows t (d : Int) threadCount = ((d / threadCount : Nat) : Int)
        ↔ ¬ threadCount ≤ (t * d) % threadCount + d % threadCount) := by
    intro t ht
    rw [matmulRows_eq t d threadCount hT hT32 hd ht hov]
    by_cases h : threadCount ≤ (t * d) % threadCount + d % threadCount
    · simp only [h, if_true, iff_true, not_true_eq_false, iff_false]
      constructor
      · trivial
      · intro hc
        have : d / threadCount + 1 = d / threadCount := by exact_mod_cast hc
        omega
    · simp only [h, if_false, iff_false, not_false_eq_true, iff_true, Nat.add_zero]
      constructor
      · intro hc
        have : d / threadCount = d / threadCount + 1 := by exact_mod_cast hc
        omega
      · trivial
  refine ⟨hrow, ?_, ?_⟩
  · rw [← card_extra_rows d threadCount hT]
    congr 1
    apply Finset.filter_congr
    intro t ht
    exact (hrow t (Finset.mem_range.mp ht)).1
  · rw [(hrow (threadCount - 1) (by omega)).1]
    obtain ⟨k, hk⟩ : ∃ k, threadCount = k + 1 := ⟨threadCount - 1, by omega⟩
    subst hk
    have h1 : (k + 1 - 1) * d = k * d := by simp
    rw [h1]
    have h2 : (k * d + d) % (k + 1) = 0 := by
      have : k * d + d = (k + 1) * d := by ring
      rw [this, Nat.mul_mod_right]
    rw [Nat.add_mod] at h2
    have h3 : (k * d % (k + 1) + d % (k + 1)) < 2 * (k + 1) := by
      have := Nat.mod_lt (k * d) (show 0 < k + 1 by omega)
      have := Nat.mod_lt d (show 0 < k + 1 by omega)
      omega
    by_contra hlt
    rw [Nat.mod_eq_of_lt (by omega)] at h2
    omega

theorem C5_remainder_rows_witness :
    (∀ t, t < 3 →
      (matmulRows t ((8 : Nat) : Int) 3 = ((8 / 3 + 1 : Nat) : Int) ↔ 3 ≤ (t * 8) % 3 + 8 % 3) ∧
      (matmulRows t ((8 : Nat) : Int) 3 = ((8 / 3 : Nat) : Int) ↔ ¬ 3 ≤ (t * 8) % 3 + 8 % 3)) ∧
    (Finset.filter (fun t => matmulRows t ((8 : Nat) : Int) 3 = ((8 / 3 + 1 : Nat) : Int))
      (Finset.range 3)).card = 8 % 3 ∧
    matmulRows (3 - 1) ((8 : Nat) : Int) 3 = ((8 / 3 + 1 : Nat) : Int) :=
  C5_remainder_rows 8 3 (by decide) (by decide) (by decide) (by decide) (by decide)

/-! ## `dotProduct` -/

/-- The lane accumulators of the vectorized `dotProduct`: lane `l` holds the sum of the
products at the indices `4 i + l`. -/
theorem dotProductLanes_eq {α : Type} [Semiring α] (a b : Int → α) (m : Nat) :
    dotProductLanes a b (4 * m)
      = ⟨0 + ∑ i in Finset.range m, a ((4 * i : Nat) : Int) * b ((4 * i : Nat) : Int),
         0 + ∑ i in Finset.range m, a ((4 * i + 1 : Nat) : Int) * b ((4 * i + 1 : Nat) : Int),
         0 + ∑ i in Finset.range m, a ((4 * i + 2 : Nat) : Int) * b ((4 * i + 2 : Nat) : Int),
         0 + ∑ i in Finset.range m, a ((4 * i + 3 : Nat) : Int) * b ((4 * i + 3 : Nat) : Int)⟩ := by
  unfold dotProductLanes
  rw [forStep_four]
  have h := foldl_vfmaq (fun i => vld1q_f32 a ((4 * i : Nat) : Int))
    (fun i => vld1q_f32 b ((4 * i : Nat) : Int)) m (vmovq_n_f32 0)
  simp only [vfmaq_f32, vmlaq_f32] at h ⊢
  rw [h]
  simp only [vld1q_f32, vmovq_n_f32]
  push_cast
  rfl

theorem dotProductScalar_eq_sum {α : Type} [Semiring α] (a b : Int → α) (size : Nat) :
    dotProductScalar a b size = ∑ i in Finset.range size, a i * b i := by
  unfold dotProductScalar
  rw [foldl_add_eq_sum (fun i => a i * b i)]
  simp

theorem dotProductNeon_eq_sum {α : Type} [Semiring α] (a b : Int → α) (m : Nat) :
    dotProductNeon a b (4 * m) = ∑ i in Finset.range (4 * m), a i * b i := by
  unfold dotProductNeon
  rw [dotProductLanes_eq]
  exact vaddvq_lanes (fun j => a (j : Int) * b (j : Int)) m

/-- C8: `dotProduct` returns the sum of the elementwise products on both code paths. For
every `size` that is a multiple of 4 the call returns, on either build, the sum over
`i < size` of `a[i] * b[i]`; the portable path accumulates it from `0` in increasing `i`;
on the vectorized path lane `l` of the accumulator holds the sum of the products at the
indices congruent to `l` modulo 4, and the horizontal add of the lanes equals the value of
the portable path (exact arithmetic). -/
theorem C8_dotProduct_sum {α : Type} [Semiring α] (bld : Build) (a b : Int → α) (size : Nat)
    (h4 : size % 4 = 0) :
    dotProduct bld a b size = Except.ok (∑ i in Finset.range size, a i * b i) ∧
    dotProductScalar a b size
      = (List.range size).foldl (fun (sum : α) (i : Nat) => sum + a i * b i) 0 ∧
    dotProductLanes a b size
      = ⟨∑ i in Finset.range (size / 4), a ((4 * i : Nat) : Int) * b ((4 * i : Nat) : Int),
         ∑ i in Finset.range (size / 4), a ((4 * i + 1 : Nat) : Int) * b ((4 * i + 1 : Nat) : Int),
         ∑ i in Finset.range (size / 4), a ((4 * i + 2 : Nat) : Int) * b ((4 * i + 2 : Nat) : Int),
         ∑ i in Finset.range (size / 4), a ((4 * i + 3 : Nat) : Int) * b ((4 * i + 3 : Nat) : Int)⟩ ∧
    dotProductNeon a b size = vaddvq_f32 (dotProductLanes a b size) ∧
    dotProductNeon a b size = dotProductScalar a b size := by
  obtain ⟨m, rfl⟩ : ∃ m, size = 4 * m := ⟨size / 4, by omega⟩
  have hm : 4 * m / 4 = m := by omega
  refine ⟨?_, rfl, ?_, rfl, ?_⟩
  · unfold dotProduct
    rw [if_neg (by omega)]
    by_cases hb : bld.neon = true
    · rw [if_pos hb, dotProductNeon_eq_sum]
    · rw [if_neg hb, dotProductScalar_eq_sum]
  · rw [dotProductLanes_eq, hm]
    simp only [zero_add]
  · rw [dotProductNeon_eq_sum, dotProductScalar_eq_sum]

theorem C8_dotProduct_sum_witness :
    dotProduct neonBuild (fun i => i + 1) (fun i => 2 * i - 3) 8
      = Except.ok (∑ i in Finset.range 8, ((fun i => i + 1) (i : Int) * (fun i => 2 * i - 3) (i : Int) : Int)) ∧
    dotProductNeon (fun i => i + 1) (fun i => 2 * i - 3 : Int → Int) 8 = 228 :=
  ⟨(C8_dotProduct_sum neonBuild (fun i => i + 1) (fun i => 2 * i - 3 : Int → Int) 8
      (by decide)).1, by decide⟩

/-! ## `softmax` -/

/-- The loop "exp and sum": the first `size` entries are replaced by `expf (x[i] - maxVal)` and
`sum` is the sum of the new entries. -/
theorem softmaxExpSum_eq {α : Type} [LinearOrderedField α] (expf : α → α) (maxVal : α)
    (x : Int → α) (size : Nat) :
    softmaxExpSum expf maxVal x size
      = (fun i : Int => if 0 ≤ i ∧ i < size then expf (x i - maxVal) else x i,
         ∑ j in Finset.range size, expf (x j - maxVal)) := by
  unfold softmaxExpSum
  induction size with
  | zero =>
    simp only [List.range_zero, List.foldl_nil, Finset.range_zero, Finset.sum_empty]
    congr
    funext i
    rw [if_neg]
    simp only [Nat.cast_zero]
    omega
  | succ k ih =>
    rw [List.range_succ, List.foldl_append, ih]
    simp only [List.foldl_cons, List.foldl_nil, Function.update_same, Finset.sum_range_succ]
    have hk : ¬ (0 ≤ (k : Int) ∧ (k : Int) < (k : Int)) := by omega
    simp only [if_neg hk]
    congr 1
    funext i
    by_cases h : i = (k : Int)
    · subst h
      rw [Function.update_same, if_pos]
      push_cast
      omega
    · rw [Function.update_noteq h]
      by_cases h2 : 0 ≤ i ∧ i < (k : Int)
      · rw [if_pos h2, if_pos]
        push_cast
        omega
      · rw [if_neg h2, if_neg]
        push_cast
        omega

/-- The loop "normalize": the first `size` entries are divided by `sum`. -/
theorem softmaxNormalize_eq {α : Type} [LinearOrderedField α] (x : Int → α) (sum : α)
    (size : Nat) :
    softmaxNormalize x sum size
      = fun i : Int => if 0 ≤ i ∧ i < size then x i / sum else x i := by
  unfold softmaxNormalize
  induction size with
  | zero =>
    simp only [List.range_zero, List.foldl_nil]
    funext i
    rw [if_neg]
    simp only [Nat.cast_zero]
    omega
  | succ k ih =>
    rw [List.range_succ, List.foldl_append, ih]
    simp only [List.foldl_cons, List.foldl_nil]
    have hk : ¬ (0 ≤ (k : Int) ∧ (k : Int) < (k : Int)) := by omega
    simp only [if_neg hk]
    funext i
    by_cases h : i = (k : Int)
    · subst h
      rw [Function.update_same, if_pos]
      push_cast
      omega
    · rw [Function.update_noteq h]
      by_cases h2 : 0 ≤ i ∧ i < (k : Int)
      · rw [if_pos h2, if_pos]
        push_cast
        omega
      · rw [if_neg h2, if_neg]
        push_cast
        omega

/-- The entries of the buffer after the part of `softmax` that follows the search of the
maximum. -/
theorem softmaxFrom_apply {α : Type} [LinearOrderedField α] (expf : α → α) (maxVal : α)
    (x : Int → α) (size : Nat) (i : Nat) (hi : i < size) :
    softmaxFrom expf maxVal x size i
      = expf (x i - maxVal) / ∑ j in Finset.range size, expf (x j - maxVal) := by
  unfold softmaxFrom
  simp only [softmaxExpSum_eq, softmaxNormalize_eq]
  have h : 0 ≤ (i : Int) ∧ (i : Int) < (size : Int) := by omega
  simp only [if_pos h]

theorem sum_expf_pos {α : Type} [LinearOrderedField α] (expf : α → α)
    (hpos : ∀ v, 0 < expf v) (maxVal : α) (x : Int → α) (size : Nat) (hsize : 1 ≤ size) :
    0 < ∑ j in Finset.range size, expf (x j - maxVal) := by
  apply Finset.sum_pos
  · intro j _
    exact hpos _
  · exact ⟨0, Finset.mem_range.mpr (by omega)⟩

/-- Whatever value is subtracted before exponentiating, the result is a probability
vector. -/
theorem softmaxFrom_probability {α : Type} [LinearOrderedField α] (expf : α → α)
    (hpos : ∀ v, 0 < expf v) (maxVal : α) (x : Int → α) (size : Nat) (hsize : 1 ≤ size) :
    (∀ i : Nat, i < size →
      0 ≤ softmaxFrom expf maxVal x size i ∧ softmaxFrom expf maxVal x size i ≤ 1) ∧
    ∑ i in Finset.range size, softmaxFrom expf maxVal x size i = 1 := by
  have hS := sum_expf_pos expf hpos maxVal x size hsize
  constructor
  · intro i hi
    rw [softmaxFrom_apply expf maxVal x size i hi]
    constructor
    · exact div_nonneg (hpos _).le hS.le
    · rw [div_le_one hS]
      exact Finset.single_le_sum (f := fun j : Nat => expf (x j - maxVal))
        (fun j _ => (hpos _).le) (Finset.mem_range.mpr hi)
  · rw [Finset.sum_congr rfl (fun i hi =>
      softmaxFrom_apply expf maxVal x size i (Finset.mem_range.mp hi))]
    rw [← Finset.sum_div, div_self hS.ne']

/-- The portable search finds the maximum of `x[0 .. size - 1]`. -/
theorem softmaxMaxScalar_isMax {α : Type} [LinearOrder α] (x : Int → α) (size : Nat)
    (hsize : 1 ≤ size) :
    (∃ j : Nat, j < size ∧ x j = softmaxMaxScalar x size) ∧
    ∀ j : Nat, j < size → x j ≤ softmaxMaxScalar x size := by
  obtain ⟨k, rfl⟩ : ∃ k, size = k + 1 := ⟨size - 1, by omega⟩
  unfold softmaxMaxScalar
  simp only [Nat.add_sub_cancel]
  induction k with
  | zero =>
    simp only [List.range_zero, List.foldl_nil]
    refine ⟨⟨0, by omega, by simp⟩, ?_⟩
    intro j hj
    have : j = 0 := by omega
    subst this
    simp
  | succ k ih =>
    rw [List.range_succ, List.foldl_append]
    simp only [List.foldl_cons, List.foldl_nil]
    obtain ⟨⟨j0, hj0, hx0⟩, hle⟩ := ih (by omega)
    have hidx : (1 : Int) + (k : Int) = ((k + 1 : Nat) : Int) := by push_cast; ring
    rw [hidx]
    split
    · rename_i hgt
      refine ⟨⟨k + 1, by omega, rfl⟩, ?_⟩
      intro j hj
      by_cases hjk : j < k + 1
      · exact le_trans (hle j hjk) (le_of_lt hgt)
      · have : j = k + 1 := by omega
        subst this
        exact le_refl _
    · rename_i hgt
      refine ⟨⟨j0, by omega, hx0⟩, ?_⟩
      intro j hj
      by_cases hjk : j < k + 1
      · exact hle j hjk
      · have : j = k + 1 := by omega
        subst this
        exact not_lt.mp hgt

/-- For a multiplicative `expf` the result does not depend on the value subtracted before
exponentiating. -/
theorem softmaxFrom_shift {α : Type} [LinearOrderedField α] (expf : α → α)
    (hpos : ∀ v, 0 < expf v) (hmul : ∀ u v, expf (u + v) = expf u * expf v) (m m' : α)
    (x : Int → α) (size : Nat) (i : Nat) (hi : i < size) :
    softmaxFrom expf m' x size i = softmaxFrom expf m x size i := by
  rw [softmaxFrom_apply expf m' x size i hi, softmaxFrom_apply expf m x size i hi]
  have hsh : ∀ v : α, expf (v - m') = expf (v - m) * expf (m - m') := by
    intro v
    rw [← hmul]
    congr 1
    ring
  have hsum : ∑ j in Finset.range size, expf (x (j : Int) - m')
      = (∑ j in Finset.range size, expf (x (j : Int) - m)) * expf (m - m') := by
    rw [Finset.sum_mul]
    exact Finset.sum_congr rfl (fun j _ => hsh (x j))
  rw [hsh (x i), hsum]
  exact mul_div_mul_right _ _ (hpos _).ne'
theorem exampleExpf_pos (v : ℚ) : 0 < exampleExpf v := by
  unfold exampleExpf
  split
  · rename_i h
    apply div_pos one_pos
    linarith
  · rename_i h
    linarith

theorem exampleExpf_strictMono : StrictMono exampleExpf := by
  intro u v huv
  unfold exampleExpf
  by_cases hu : u < 0
  · rw [if_pos hu]
    by_cases hv : v < 0
    · rw [if_pos hv]
      apply one_div_lt_one_div_of_lt
      · linarith
      · linarith
    · rw [if_neg hv]
      have h1 : 1 / (1 - u) < 1 := by
        rw [div_lt_one (by linarith)]
        linarith
      linarith
  · rw [if_neg hu, if_neg (by linarith)]
    linarith

/-! ## The 4-bit-block x dense-float kernel -/

/-- A loop over `m * k` indices equals `m` rounds of a loop over `k` indices. -/
theorem foldl_range_mul {β : Type} (f : β → Nat → β) (k : Nat) (m : Nat) (init : β) :
    (List.range (m * k)).foldl f init
      = (List.range m).foldl (fun (acc : β) (j : Nat) =>
          (List.range k).foldl (fun (acc : β) (z : Nat) => f acc (j * k + z)) acc) init := by
  induction m with
  | zero => simp
  | succ g ih =>
    rw [List.range_succ, List.foldl_append, ← ih, Nat.succ_mul, List.range_add,
      List.foldl_append, List.foldl_map]
    simp only [List.foldl_cons, List.foldl_nil]

/-- The entry `z < 256` of the group buffer of group `j` is the element `256 j + z` of the
dequantized row. -/
theorem dequantizeQ40Row_group {α : Type} [Mul α] [IntCast α] (cvt : Nat → α)
    (w : Int → BlockQ40) (group : Int → α) (g : Nat) (d : Int) (j z : Nat) (hz : z < 256) :
    dequantizeQ40Row cvt (fun i => w (d * (g : Int) * ((8 : Nat) : Int)
        + (j : Int) * ((8 : Nat) : Int) + i)) group 256 (z : Int)
      = dequantizedRow cvt w (g * 256) d (j * 256 + z) := by
  unfold dequantizeQ40Row dequantizedRow
  have hz' : (0 : Int) ≤ (z : Int) ∧ (z : Int) < ((256 : Nat) : Int) := by omega
  rw [if_pos hz']
  have hQ : QK40 = 32 := rfl
  simp only [hQ]
  have h1 : (g * 256 / 32 : Nat) = g * 8 := by omega
  have h2 : ((j * 256 + z) / 32 : Nat) = j * 8 + z / 32 := by omega
  have h3 : (j * 256 + z) % 32 = z % 32 := by omega
  have h4 : ((z : Int) % ((32 : Nat) : Int)).toNat = z % 32 := by omega
  have h5 : d * (g : Int) * ((8 : Nat) : Int) + (j : Int) * ((8 : Nat) : Int)
      + (z : Int) / ((32 : Nat) : Int)
      = d * ((g * 8 : Nat) : Int) + ((j * 8 + z / 32 : Nat) : Int) := by
    push_cast
    ring
  rw [h1, h2, h3, h4, h5]

/-- Row value of the portable `matmulQ40`: the products of the dequantized row with the
input, accumulated in increasing index order. -/
theorem matmulQ40ScalarRow_eq_foldl {α : Type} [Zero α] [Add α] [Mul α] [IntCast α]
    (cvt : Nat → α) (w : Int → BlockQ40) (input group : Int → α) (g : Nat) (d : Int) :
    matmulQ40ScalarRow cvt 8 256 g w input group d
      = (List.range (g * 256)).foldl (fun (val : α) (j : Nat) =>
          val + dequantizedRow cvt w (g * 256) d j * input j) 0 := by
  unfold matmulQ40ScalarRow
  rw [foldl_range_mul (fun (val : α) (j : Nat) =>
    val + dequantizedRow cvt w (g * 256) d j * input j) 256 g 0]
  apply List.foldl_ext
  intro acc j _
  apply List.foldl_ext
  intro acc2 z hz
  have hz' : z < 256 := List.mem_range.mp hz
  rw [dequantizeQ40Row_group cvt w group g d j z hz']
  push_cast
  rfl

/-- A sum over `m * k` indices equals `m` sums over `k` indices. -/
theorem sum_range_mul {α : Type} [AddCommMonoid α] (f : Nat → α) (k m : Nat) :
    ∑ idx in Finset.range (m * k), f idx
      = ∑ j in Finset.range m, ∑ z in Finset.range k, f (j * k + z) := by
  induction m with
  | zero => simp
  | succ g ih =>
    rw [Nat.succ_mul, Finset.sum_range_add, ih, Finset.sum_range_succ]

set_option maxRecDepth 8192 in
/-- One group of the vectorized `matmulQ40`: 64 fused multiply-adds on four lanes. -/
theorem matmulQ40Neon_group {α : Type} [CommRing α] (cvt : Nat → α) (w : Int → BlockQ40)
    (input group : Int → α) (d : Int) (g j : Nat) (u : F32x4 α) :
    forStep 0 256 4 (fun (z : Nat) (u : F32x4 α) =>
        vfmaq_f32 u (vld1q_f32 input ((j : Int) * ((256 : Nat) : Int) + (z : Int)))
          (vld1q_f32 (dequantizeQ40Row cvt (fun i => w (d * (g : Int) * ((8 : Nat) : Int)
            + (j : Int) * ((8 : Nat) : Int) + i)) group 256) (z : Int))) u
    = ⟨u.l0 + ∑ i in Finset.range 64, dequantizedRow cvt w (g * 256) d (j * 256 + 4 * i)
            * input ((j * 256 + 4 * i : Nat) : Int),
       u.l1 + ∑ i in Finset.range 64, dequantizedRow cvt w (g * 256) d (j * 256 + (4 * i + 1))
            * input ((j * 256 + (4 * i + 1) : Nat) : Int),
       u.l2 + ∑ i in Finset.range 64, dequantizedRow cvt w (g * 256) d (j * 256 + (4 * i + 2))
            * input ((j * 256 + (4 * i + 2) : Nat) : Int),
       u.l3 + ∑ i in Finset.range 64, dequantizedRow cvt w (g * 256) d (j * 256 + (4 * i + 3))
            * input ((j * 256 + (4 * i + 3) : Nat) : Int)⟩ := by
  rw [show (256 : Nat) = 4 * 64 from rfl, forStep_four]
  rw [foldl_vfmaq (fun i => vld1q_f32 input ((j : Int) * ((4 * 64 : Nat) : Int) + ((4 * i : Nat) : Int)))
    (fun i => vld1q_f32 (dequantizeQ40Row cvt (fun i => w (d * (g : Int) * ((8 : Nat) : Int)
            + (j : Int) * ((8 : Nat) : Int) + i)) group (4 * 64)) ((4 * i : Nat) : Int))]
  unfold vld1q_f32
  dsimp only
  refine congr (congr (congr (congrArg F32x4.mk ?_) ?_) ?_) ?_ <;> congr 1 <;>
    apply Finset.sum_congr rfl <;> intro i hi <;>
    have hi' : i < 64 := Finset.mem_range.mp hi
  · rw [dequantizeQ40Row_group cvt w group g d j (4 * i) (by omega), mul_comm]
    congr 2
  · have h := dequantizeQ40Row_group cvt w group g d j (4 * i + 1) (by omega)
    push_cast at h ⊢
    rw [h, mul_comm]
    congr 2
  · have h := dequantizeQ40Row_group cvt w group g d j (4 * i + 2) (by omega)
    push_cast at h ⊢
    rw [h, mul_comm]
    congr 2
  · have h := dequantizeQ40Row_group cvt w group g d j (4 * i + 3) (by omega)
    push_cast at h ⊢
    rw [h, mul_comm]
    congr 2

/-- The lane accumulators of the vectorized `matmulQ40` after `c` groups of a row of `g`
groups. -/
theorem matmulQ40Neon_lanes {α : Type} [CommRing α] (cvt : Nat → α) (w : Int → BlockQ40)
    (input group : Int → α) (d : Int) (g c : Nat) :
    (List.range c).foldl (fun (u : F32x4 α) (j : Nat) =>
      forStep 0 256 4 (fun (z : Nat) (u : F32x4 α) =>
        vfmaq_f32 u (vld1q_f32 input ((j : Int) * ((256 : Nat) : Int) + (z : Int)))
          (vld1q_f32 (dequantizeQ40Row cvt (fun i => w (d * (g : Int) * ((8 : Nat) : Int)
            + (j : Int) * ((8 : Nat) : Int) + i)) group 256) (z : Int))) u) (vmovq_n_f32 0)
    = ⟨0 + ∑ j in Finset.range c, ∑ i in Finset.range 64,
          dequantizedRow cvt w (g * 256) d (j * 256 + 4 * i)
            * input ((j * 256 + 4 * i : Nat) : Int),
       0 + ∑ j in Finset.range c, ∑ i in Finset.range 64,
          dequantizedRow cvt w (g * 256) d (j * 256 + (4 * i + 1))
            * input ((j * 256 + (4 * i + 1) : Nat) : Int),
       0 + ∑ j in Finset.range c, ∑ i in Finset.range 64,
          dequantizedRow cvt w (g * 256) d (j * 256 + (4 * i + 2))
            * input ((j * 256 + (4 * i + 2) : Nat) : Int),
       0 + ∑ j in Finset.range c, ∑ i in Finset.range 64,
          dequantizedRow cvt w (g * 256) d (j * 256 + (4 * i + 3))
            * input ((j * 256 + (4 * i + 3) : Nat) : Int)⟩ := by
  induction c with
  | zero => simp [vmovq_n_f32]
  | succ c ih =>
    rw [List.range_succ, List.foldl_append, ih]
    simp only [List.foldl_cons, List.foldl_nil]
    rw [matmulQ40Neon_group]
    simp only [Finset.sum_range_succ (fun j => ∑ i in Finset.range 64, _), add_assoc]

/-- Row value of the vectorized `matmulQ40` as a sum over the dequantized row. -/
theorem matmulQ40NeonRow_eq_sum {α : Type} [CommRing α] (cvt : Nat → α) (w : Int → BlockQ40)
    (input group : Int → α) (g : Nat) (d : Int) :
    matmulQ40NeonRow cvt 8 256 g w input group d
      = ∑ j in Finset.range (g * 256), dequantizedRow cvt w (g * 256) d j * input j := by
  unfold matmulQ40NeonRow
  dsimp only
  rw [matmulQ40Neon_lanes, sum_range_mul]
  simp only [vaddvq_f32, zero_add]
  rw [← Finset.sum_add_distrib, ← Finset.sum_add_distrib, ← Finset.sum_add_distrib]
  apply Finset.sum_congr rfl
  intro j _
  rw [show (256 : Nat) = 4 * 64 from rfl,
    sum_range_four_mul (fun z => dequantizedRow cvt w (g * (4 * 64)) d (j * (4 * 64) + z)
      * input ((j * (4 * 64) + z : Nat) : Int)) 64]
  simp only [Finset.sum_add_distrib]
  abel
/-- The outcome of `matmulQ40` on a row of `g` groups. -/
theorem matmulQ40_eq {α : Type} [Zero α] [Add α] [Mul α] [IntCast α] (b : Build)
    (cvt : Nat → α) (a : MatmulThreadInfo α) (g : Nat) (hn : a.n = g * 256) :
    matmulQ40 b cvt a = Except.ok (if b.neon = true
      then storeRows (matmulQ40NeonRow cvt 8 256 g a.weights.asQ40 a.input.asF32 (fun _ => 0)) a
      else storeRows (matmulQ40ScalarRow cvt 8 256 g a.weights.asQ40 a.input.asF32
        (fun _ => 0)) a) := by
  have hk : QK40 * 8 = 256 := rfl
  have hg : g * 256 / 256 = g := by omega
  have hm : g * 256 % 256 = 0 := by omega
  unfold matmulQ40
  simp only [hk, hn, hg, hm, ne_eq, not_true_eq_false, if_false]
  by_cases hb : b.neon = true
  · simp [hb]
  · simp [hb]

/-- C7: the 4-bit-block x dense-float kernel equals the inner product of the dequantized
row with the input. For every `n` that is a multiple of 256 the call returns, on either
build, and for every row `r` of `[ds, de)` the entry `output[r]` is the sum over `j < n` of
`deq(r)[j] * input[j]` (exact arithmetic); on the portable path the sum is accumulated from
`0` in increasing index order, group by group. -/
theorem C7_matmulQ40_inner_product {α : Type} [CommRing α] (b : Build)
    (convertF16ToF32 : Nat → α) (output : Int → α) (input weights : Buffer α) (n : Nat)
    (d : Int) (nThreads threadIndex : Nat) (h256 : n % 256 = 0) :
    ∃ s, matmul b convertF16ToF32 FloatType.Q40 FloatType.F32 output input weights n d
        nThreads threadIndex = Except.ok s ∧
      ∀ r : Int, matmulDs threadIndex d nThreads ≤ r → r < matmulDe threadIndex d nThreads →
        s.output r = ∑ j in Finset.range n,
          dequantizedRow convertF16ToF32 weights.asQ40 n r j * input.asF32 j ∧
        (b.neon = false → s.output r = (List.range n).foldl (fun (val : α) (j : Nat) =>
          val + dequantizedRow convertF16ToF32 weights.asQ40 n r j * input.asF32 j) 0) := by
  obtain ⟨g, rfl⟩ : ∃ g, n = g * 256 := ⟨n / 256, by omega⟩
  have hcall : matmul b convertF16ToF32 FloatType.Q40 FloatType.F32 output input weights
      (g * 256) d nThreads threadIndex
      = matmulQ40 b convertF16ToF32
          (matmulInfo output input weights (g * 256) d nThreads threadIndex) := rfl
  rw [hcall, matmulQ40_eq b convertF16ToF32 _ g rfl]
  refine ⟨_, rfl, ?_⟩
  intro r h1 h2
  by_cases hb : b.neon = true
  · rw [if_pos hb, storeRows_output _ _ r h1 h2]
    refine ⟨?_, fun h => by rw [hb] at h; cases h⟩
    exact matmulQ40NeonRow_eq_sum convertF16ToF32 _ _ _ g r
  · rw [if_neg hb, storeRows_output _ _ r h1 h2]
    have hfold := matmulQ40ScalarRow_eq_foldl convertF16ToF32 weights.asQ40 input.asF32
      (fun _ => 0) g r
    refine ⟨?_, fun _ => hfold⟩
    show matmulQ40ScalarRow convertF16ToF32 8 256 g weights.asQ40 input.asF32 (fun _ => 0) r = _
    rw [hfold, foldl_add_eq_sum (fun j =>
      dequantizedRow convertF16ToF32 weights.asQ40 (g * 256) r j * input.asF32 j)]
    simp

theorem C7_matmulQ40_inner_product_witness :
    ∃ s, matmul neonBuild exampleConvert FloatType.Q40 FloatType.F32 (fun _ => 0)
        (exampleBuffer fun i => i) (exampleBuffer fun _ => 0) 256 2 2 1 = Except.ok s ∧
      ∀ r : Int, matmulDs 1 2 2 ≤ r → r < matmulDe 1 2 2 →
        s.output r = ∑ j in Finset.range 256,
          dequantizedRow exampleConvert (exampleBuffer fun _ => 0).asQ40 256 r j
            * (exampleBuffer fun i => i).asF32 j ∧
        (neonBuild.neon = false → s.output r = (List.range 256).foldl (fun (val : Int) (j : Nat) =>
          val + dequantizedRow exampleConvert (exampleBuffer fun _ => 0).asQ40 256 r j
            * (exampleBuffer fun i => i).asF32 j) 0) :=
  C7_matmulQ40_inner_product neonBuild exampleConvert (fun _ => 0)
    (exampleBuffer fun i => i) (exampleBuffer fun _ => 0) 256 2 2 1 (by decide)


/-! ## The 4-bit-block x 8-bit-block kernel -/

/-- A sum over `2 * m` indices, taken two at a time. -/
theorem sum_range_two_mul {α : Type} [AddCommMonoid α] (f : Nat → α) (m : Nat) :
    ∑ j in Finset.range (2 * m), f j
      = ∑ i in Finset.range m, (f (2 * i) + f (2 * i + 1)) := by
  induction m with
  | zero => simp
  | succ k ih =>
    rw [Finset.sum_range_succ, ← ih, show 2 * (k + 1) = 2 * k + 1 + 1 by ring]
    simp only [Finset.sum_range_succ]
    abel

/-- The two accumulators `sumv0`, `sumv1` after `m` rounds of scaled accumulation. -/
theorem foldl_vmlaq_n_pair {α : Type} [Semiring α] (A B : Nat → F32x4 α) (sa sb : Nat → α)
    (m : Nat) (u v : F32x4 α) :
    (List.range m).foldl (fun (sums : F32x4 α × F32x4 α) (i : Nat) =>
        (vmlaq_n_f32 sums.1 (A i) (sa i), vmlaq_n_f32 sums.2 (B i) (sb i))) (u, v)
      = (⟨u.l0 + ∑ i in Finset.range m, (A i).l0 * sa i,
          u.l1 + ∑ i in Finset.range m, (A i).l1 * sa i,
          u.l2 + ∑ i in Finset.range m, (A i).l2 * sa i,
          u.l3 + ∑ i in Finset.range m, (A i).l3 * sa i⟩,
         ⟨v.l0 + ∑ i in Finset.range m, (B i).l0 * sb i,
          v.l1 + ∑ i in Finset.range m, (B i).l1 * sb i,
          v.l2 + ∑ i in Finset.range m, (B i).l2 * sb i,
          v.l3 + ∑ i in Finset.range m, (B i).l3 * sb i⟩) := by
  induction m with
  | zero => simp
  | succ k ih =>
    rw [List.range_succ, List.foldl_append, ih]
    simp only [List.foldl_cons, List.foldl_nil, vmlaq_n_f32, Finset.sum_range_succ, add_assoc]

/-- Row value of the vectorized `matmulQ40vQ80`: the loop takes the block positions
`0 .. 2 * ⌈n / 2⌉ - 1`, one more than the row has when the block count `n` is odd. -/
theorem matmulQ40vQ80NeonRow_eq_sum {α : Type} [CommRing α] (bld : Build) (cvt : Nat → α)
    (n : Nat) (w : Int → BlockQ40) (input : Int → BlockQ80) (d : Int) :
    matmulQ40vQ80NeonRow bld cvt n w input d
      = ∑ b in Finset.range (2 * ((n + 1) / 2)), blockTerm bld cvt w input n d b := by
  unfold matmulQ40vQ80NeonRow forStep
  have hc : (n - 0 + (2 - 1)) / 2 = (n + 1) / 2 := by simp
  rw [hc]
  dsimp only
  rw [foldl_vmlaq_n_pair
    (fun i => vcvtq_f32_s32 (blockDot bld (w (d * n + ((0 + 2 * i : Nat) : Int)))
      (input ((0 + 2 * i : Nat) : Int))))
    (fun i => vcvtq_f32_s32 (blockDot bld (w (d * n + ((0 + 2 * i : Nat) : Int) + 1))
      (input (((0 + 2 * i : Nat) : Int) + 1))))
    (fun i => cvt (w (d * n + ((0 + 2 * i : Nat) : Int))).d
      * cvt (input ((0 + 2 * i : Nat) : Int)).d)
    (fun i => cvt (w (d * n + ((0 + 2 * i : Nat) : Int) + 1)).d
      * cvt (input (((0 + 2 * i : Nat) : Int) + 1)).d)]
  rw [sum_range_two_mul]
  simp only [vaddvq_f32, vmovq_n_f32, zero_add, blockTerm, ← Finset.sum_add_distrib]
  apply Finset.sum_congr rfl
  intro i _
  have e1 : d * (n : Int) + ((2 * i : Nat) : Int) + 1 = d * (n : Int) + ((2 * i + 1 : Nat) : Int) := by
    push_cast
    ring
  have e2 : ((2 * i : Nat) : Int) + 1 = ((2 * i + 1 : Nat) : Int) := by
    push_cast
    ring
  rw [e1, e2]
  ring

/-- With an even block count the vectorized `matmulQ40vQ80` takes the blocks of the row. -/
theorem matmulQ40vQ80NeonRow_even {α : Type} [CommRing α] (bld : Build) (cvt : Nat → α)
    (n : Nat) (w : Int → BlockQ40) (input : Int → BlockQ80) (d : Int) (hn : n % 2 = 0) :
    matmulQ40vQ80NeonRow bld cvt n w input d
      = ∑ b in Finset.range n, blockTerm bld cvt w input n d b := by
  rw [matmulQ40vQ80NeonRow_eq_sum, show 2 * ((n + 1) / 2) = n by omega]

/-- With an odd block count the vectorized `matmulQ40vQ80` adds the term of block position
`n`, which lies behind the row and behind the input. -/
theorem matmulQ40vQ80NeonRow_odd {α : Type} [CommRing α] (bld : Build) (cvt : Nat → α)
    (n : Nat) (w : Int → BlockQ40) (input : Int → BlockQ80) (d : Int) (hn : n % 2 = 1) :
    matmulQ40vQ80NeonRow bld cvt n w input d
      = (∑ b in Finset.range n, blockTerm bld cvt w input n d b)
        + blockTerm bld cvt w input n d n := by
  rw [matmulQ40vQ80NeonRow_eq_sum, show 2 * ((n + 1) / 2) = n + 1 by omega,
    Finset.sum_range_succ]

/-- C6 (the code at the failing input): with `n = 32`, one block per row and per input, the
vectorized loop runs at `j = 0` and takes the blocks `j` and `j + 1`. The one-block
semantics gives `output[0] = 48`; the kernel adds the product of block 1 of the weights
with block 1 of the input, both behind the row and the input, and stores `240`; with other
bytes behind the one-block input it stores `1488`. -/
theorem C6_odd_block_count_reads_next_block :
    blockwiseRow exampleConvert (exampleBuffer fun _ => 0).asQ40
      (exampleBuffer fun _ => 0).asQ80 32 0 = 48 ∧
    outputAt (matmul neonBuild exampleConvert FloatType.Q40 FloatType.Q80 (fun _ => 0)
      (exampleBuffer fun _ => 0) (exampleBuffer fun _ => 0) 32 1 1 0) 0 = some 240 ∧
    (exampleBufferBehind fun _ => 0).asQ80 0 = (exampleBuffer fun _ => 0).asQ80 0 ∧
    outputAt (matmul neonBuild exampleConvert FloatType.Q40 FloatType.Q80 (fun _ => 0)
      (exampleBufferBehind fun _ => 0) (exampleBuffer fun _ => 0) 32 1 1 0) 0 = some 1488 := by
  refine ⟨by decide, by decide, rfl, by decide⟩



/-! ## `rms` -/

theorem rmsSumScalar_eq_sum {α : Type} [Semiring α] (x : Int → α) (size : Nat) :
    rmsSumScalar x size = ∑ j in Finset.range size, x j * x j := by
  unfold rmsSumScalar
  rw [foldl_add_eq_sum (fun j => x j * x j)]
  simp

theorem rmsSumNeon_eq_sum {α : Type} [Semiring α] (x : Int → α) (m : Nat) :
    rmsSumNeon x (4 * m) = ∑ j in Finset.range (4 * m), x j * x j :=
  dotProductNeon_eq_sum x x m

/-- The value `rms` returns for a size that is a multiple of 4, on either build. -/
theorem rms_eq {α : Type} [Field α] (bld : Build) (sqrtf : α → α) (x : Int → α) (size : Nat)
    (h4 : size % 4 = 0) :
    rms bld sqrtf x size
      = Except.ok (1 / sqrtf ((∑ j in Finset.range size, x j * x j) / (size : α) + 1 / 100000)) := by
  obtain ⟨m, rfl⟩ : ∃ m, size = 4 * m := ⟨size / 4, by omega⟩
  unfold rms
  rw [if_neg (by omega)]
  by_cases hb : bld.neon = true
  · simp only [hb, if_true, rmsSumNeon_eq_sum]
  · have hb' : bld.neon = false := by simpa using hb
    simp only [hb', Bool.false_eq_true, if_false, rmsSumScalar_eq_sum]

theorem mean_square_nonneg {α : Type} [LinearOrderedField α] (x : Int → α) (size : Nat)
    (hsize : 0 < size) : 0 ≤ (∑ j in Finset.range size, x j * x j) / (size : α) := by
  have hs : (0 : α) < (size : α) := Nat.cast_pos.mpr hsize
  apply div_nonneg
  · exact Finset.sum_nonneg (fun j _ => mul_self_nonneg _)
  · exact hs.le

/-- C11: `rms` returns the reciprocal root mean square with the epsilon term. For every
`x` and every `size > 0` that is a multiple of 4, on either build, the call returns
`1 / sqrtf ((sum over j < size of x[j] * x[j]) / size + 1e-5)`; the result is strictly
positive and at most `1 / sqrtf (1e-5)` (exact arithmetic, `sqrtf` positive and increasing
on the positive numbers). -/
theorem C11_rms_value {α : Type} [LinearOrderedField α] (bld : Build) (sqrtf : α → α)
    (hpos : ∀ v, 0 < v → 0 < sqrtf v) (hmono : ∀ u v, 0 < u → u ≤ v → sqrtf u ≤ sqrtf v)
    (x : Int → α) (size : Nat) (hsize : 0 < size) (h4 : size % 4 = 0) :
    rms bld sqrtf x size
      = Except.ok (1 / sqrtf ((∑ j in Finset.range size, x j * x j) / (size : α) + 1 / 100000)) ∧
    0 < 1 / sqrtf ((∑ j in Finset.range size, x j * x j) / (size : α) + 1 / 100000) ∧
    1 / sqrtf ((∑ j in Finset.range size, x j * x j) / (size : α) + 1 / 100000)
      ≤ 1 / sqrtf (1 / 100000) := by
  have hm := mean_square_nonneg x size hsize
  have heps : (0 : α) < 1 / 100000 := by norm_num
  have harg : (0 : α) < (∑ j in Finset.range size, x j * x j) / (size : α) + 1 / 100000 := by
    linarith
  refine ⟨rms_eq bld sqrtf x size h4, ?_, ?_⟩
  · exact div_pos one_pos (hpos _ harg)
  · apply one_div_le_one_div_of_le (hpos _ heps)
    apply hmono _ _ heps
    linarith

theorem exampleSqrtf_pos (v : ℚ) (h : 0 < v) : 0 < exampleSqrtf v := by
  unfold exampleSqrtf
  linarith

theorem exampleSqrtf_mono (u v : ℚ) (_ : 0 < u) (h : u ≤ v) :
    exampleSqrtf u ≤ exampleSqrtf v := by
  unfold exampleSqrtf
  linarith

theorem C11_rms_value_witness :
    rms neonBuild exampleSqrtf (fun i : Int => (i : ℚ)) 8
      = Except.ok (1 / exampleSqrtf ((∑ j in Finset.range 8,
          (fun i : Int => (i : ℚ)) j * (fun i : Int => (i : ℚ)) j) / ((8 : Nat) : ℚ) + 1 / 100000)) ∧
    0 < 1 / exampleSqrtf ((∑ j in Finset.range 8,
          (fun i : Int => (i : ℚ)) j * (fun i : Int => (i : ℚ)) j) / ((8 : Nat) : ℚ) + 1 / 100000) ∧
    1 / exampleSqrtf ((∑ j in Finset.range 8,
          (fun i : Int => (i : ℚ)) j * (fun i : Int => (i : ℚ)) j) / ((8 : Nat) : ℚ) + 1 / 100000)
      ≤ 1 / exampleSqrtf (1 / 100000) :=
  C11_rms_value neonBuild exampleSqrtf exampleSqrtf_pos exampleSqrtf_mono
    (fun i : Int => (i : ℚ)) 8 (by decide) (by decide)


/-- C19: the row ranges of `matmul` are balanced and well-formed. For every `0 ≤ d < 2 ^ 31`,
every `1 ≤ nThreads < 2 ^ 32` with `nThreads * d < 2 ^ 32` and every `threadIndex < nThreads`:
`0 ≤ ds ≤ de ≤ d`, the length `de - ds` is `⌊d / nThreads⌋` or `⌈d / nThreads⌉`, and the row
counts of any two threads differ by at most one; `nThreads > d` is allowed, and then the
ranges of length `⌊d / nThreads⌋ = 0` are empty. -/
theorem C19_ranges_balanced (d nThreads threadIndex : Nat) (hT : 1 ≤ nThreads)
    (hT32 : nThreads < 2 ^ 32) (hd : d < 2 ^ 31) (hov : nThreads * d < 2 ^ 32)
    (ht : threadIndex < nThreads) :
    (0 ≤ matmulDs threadIndex (d : Int) nThreads ∧
      matmulDs threadIndex (d : Int) nThreads ≤ matmulDe threadIndex (d : Int) nThreads ∧
      matmulDe threadIndex (d : Int) nThreads ≤ (d : Int)) ∧
    (matmulRows threadIndex (d : Int) nThreads = ((d / nThreads : Nat) : Int) ∨
      matmulRows threadIndex (d : Int) nThreads = (((d + nThreads - 1) / nThreads : Nat) : Int)) ∧
    (∀ other, other < nThreads →
      matmulRows threadIndex (d : Int) nThreads - matmulRows other (d : Int) nThreads ≤ 1 ∧
      matmulRows other (d : Int) nThreads - matmulRows threadIndex (d : Int) nThreads ≤ 1) ∧
    (d < nThreads → d / nThreads = 0) := by
  have hds := matmulDs_eq threadIndex d nThreads hT hd (by omega) hov
  have hde := matmulDe_eq threadIndex d nThreads hT hT32 hd ht hov
  have hrows := matmulRows_eq threadIndex d nThreads hT hT32 hd ht hov
  have hmono := cut_mono d nThreads (show threadIndex ≤ threadIndex + 1 by omega)
  have hlast : (threadIndex + 1) * d / nThreads ≤ d := by
    calc (threadIndex + 1) * d / nThreads ≤ nThreads * d / nThreads :=
          cut_mono d nThreads (show threadIndex + 1 ≤ nThreads by omega)
      _ = d := Nat.mul_div_cancel_left d (by omega)
  have hceil : (d + nThreads - 1) / nThreads
      = d / nThreads + (if d % nThreads = 0 then 0 else 1) := by
    have hdm := Nat.div_add_mod d nThreads
    have hlt := Nat.mod_lt d (show 0 < nThreads by omega)
    by_cases h0 : d % nThreads = 0
    · rw [if_pos h0]
      have e : d + nThreads - 1 = (nThreads - 1) + nThreads * (d / nThreads) := by omega
      rw [e, Nat.add_mul_div_left _ _ (by omega : 0 < nThreads),
        Nat.div_eq_of_lt (by omega)]
      omega
    · rw [if_neg h0]
      have e : d + nThreads - 1 = (d % nThreads - 1) + nThreads * (d / nThreads + 1) := by
        have : nThreads * (d / nThreads + 1) = nThreads * (d / nThreads) + nThreads := by ring
        omega
      rw [e, Nat.add_mul_div_left _ _ (by omega : 0 < nThreads),
        Nat.div_eq_of_lt (by omega)]
      omega
  refine ⟨⟨?_, ?_, ?_⟩, ?_, ?_, ?_⟩
  · rw [hds]; positivity
  · rw [hds, hde]; exact_mod_cast hmono
  · rw [hde]; exact_mod_cast hlast
  · rw [hrows, hceil]
    by_cases hc : nThreads ≤ threadIndex * d % nThreads + d % nThreads
    · right
      have hne : d % nThreads ≠ 0 := by
        intro h0
        have := Nat.mod_lt (threadIndex * d) (show 0 < nThreads by omega)
        omega
      rw [if_pos hc, if_neg hne]
    · left
      rw [if_neg hc]
      simp
  · intro other ho
    rw [hrows, matmulRows_eq other d nThreads hT hT32 hd ho hov]
    constructor <;> split <;> split <;> push_cast <;> omega
  · intro h
    exact Nat.div_eq_of_lt h

theorem C19_ranges_balanced_witness :
    (0 ≤ matmulDs 3 ((2 : Nat) : Int) 5 ∧
      matmulDs 3 ((2 : Nat) : Int) 5 ≤ matmulDe 3 ((2 : Nat) : Int) 5 ∧
      matmulDe 3 ((2 : Nat) : Int) 5 ≤ ((2 : Nat) : Int)) ∧
    (matmulRows 3 ((2 : Nat) : Int) 5 = ((2 / 5 : Nat) : Int) ∨
      matmulRows 3 ((2 : Nat) : Int) 5 = (((2 + 5 - 1) / 5 : Nat) : Int)) ∧
    (∀ other, other < 5 →
      matmulRows 3 ((2 : Nat) : Int) 5 - matmulRows other ((2 : Nat) : Int) 5 ≤ 1 ∧
      matmulRows other ((2 : Nat) : Int) 5 - matmulRows 3 ((2 : Nat) : Int) 5 ≤ 1) ∧
    (2 < 5 → 2 / 5 = 0) :=
  C19_ranges_balanced 2 5 3 (by decide) (by decide) (by decide) (by decide) (by decide)

/-! ## `matmul` against `dotProduct` -/

/-- C14: format consistency between `matmul` and `dotProduct`. For every `n` that is a
multiple of 4 and every vector `v` of length `n`, on either build, `matmul` with dense-float
weights and dense-float input, `d = 1`, `threadCount = 1`, `threadIndex = 0`, the weight
row and the input both equal to `v`, returns with `output[0]` equal to the value that
`dotProduct(v, v, n)` returns (exact arithmetic). -/
theorem C14_matmul_self_dot {α : Type} [CommRing α] (bld : Build) (convertF16ToF32 : Nat → α)
    (output : Int → α) (input weights : Buffer α) (v : Int → α) (n : Nat) (h4 : n % 4 = 0)
    (hw : ∀ j : Nat, j < n → weights.asF32 j = v j)
    (hin : ∀ j : Nat, j < n → input.asF32 j = v j) :
    ∃ s p, matmul bld convertF16ToF32 FloatType.F32 FloatType.F32 output input weights n 1 1 0
        = Except.ok s ∧
      dotProduct bld v v n = Except.ok p ∧ s.output 0 = p ∧
      p = ∑ j in Finset.range n, v j * v j := by
  obtain ⟨m, rfl⟩ : ∃ m, n = 4 * m := ⟨n / 4, by omega⟩
  have hds : matmulDs 0 1 1 ≤ (0 : Int) := by decide
  have hde : (0 : Int) < matmulDe 0 1 1 := by decide
  have hsum : ∑ j in Finset.range (4 * m), weights.asF32 (0 * ((4 * m : Nat) : Int) + (j : Int))
      * input.asF32 (j : Int) = ∑ j in Finset.range (4 * m), v j * v j := by
    apply Finset.sum_congr rfl
    intro j hj
    have hj' : j < 4 * m := Finset.mem_range.mp hj
    rw [zero_mul, zero_add, hw j hj', hin j hj']
  refine ⟨matmulF32 bld (matmulInfo output input weights (4 * m) 1 1 0),
    ∑ j in Finset.range (4 * m), v j * v j, rfl, ?_, ?_, rfl⟩
  · unfold dotProduct
    rw [if_neg (by omega)]
    by_cases hb : bld.neon = true
    · rw [if_pos hb, dotProductNeon_eq_sum]
    · rw [if_neg hb, dotProductScalar_eq_sum]
  · unfold matmulF32
    by_cases hb : bld.neon = true
    · rw [if_pos hb]
      unfold matmulF32Neon
      rw [storeRows_output _ _ 0 hds hde]
      show matmulF32NeonRow weights.asF32 input.asF32 (4 * m) 0 = _
      rw [matmulF32NeonRow_eq_sum _ _ _ _ (by omega), hsum]
    · rw [if_neg hb]
      unfold matmulF32Scalar
      rw [storeRows_output _ _ 0 hds hde]
      show matmulF32ScalarRow weights.asF32 input.asF32 (4 * m) 0 = _
      rw [matmulF32ScalarRow_eq_sum, hsum]

theorem C14_matmul_self_dot_witness :
    ∃ s p, matmul neonBuild exampleConvert FloatType.F32 FloatType.F32 (fun _ => 0)
        (exampleBuffer fun i => 3 * i - 1) (exampleBuffer fun i => 3 * i - 1) 8 1 1 0
        = Except.ok s ∧
      dotProduct neonBuild (fun i : Int => 3 * i - 1) (fun i : Int => 3 * i - 1) 8 = Except.ok p ∧
      s.output 0 = p ∧
      p = ∑ j in Finset.range 8, (fun i : Int => 3 * i - 1) j * (fun i : Int => 3 * i - 1) j :=
  C14_matmul_self_dot neonBuild exampleConvert (fun _ => 0)
    (exampleBuffer fun i => 3 * i - 1) (exampleBuffer fun i => 3 * i - 1)
    (fun i : Int => 3 * i - 1) 8 (by decide) (fun _ _ => rfl) (fun _ _ => rfl)


/-! ## Size assertions -/

theorem toUInt32_natCast {n : Nat} (h : n < 2 ^ 31) : toUInt32 (n : Int) = n := by
  rw [toUInt32_of_nonneg (by positivity) (by exact_mod_cast (by omega : n < 2 ^ 32))]
  simp

/-- C15 (as stated, refuted): on a build without the vector capability `matmulQ40vQ80` with
`n = 32`, a multiple of 32, passes its assertion and ends in the fatal "not implemented"
exit: the operation neither raises an assertion fault nor completes. -/
theorem C15_q40vq80_exits_without_neon :
    32 % 32 = 0 ∧
    matmulQ40vQ80 portableBuild exampleConvert
      (matmulInfo (fun _ => 0) (exampleBuffer fun _ => 0) (exampleBuffer fun _ => 0) 32 1 1 0)
      = Except.error Fault.notImplemented :=
  ⟨rfl, rfl⟩

/-- C15 (amended): the size preconditions are assertion faults, raised exactly on
violation. `dotProduct` and `rms` end in the assertion fault if and only if `size` is not a
multiple of 4; `rmsnorm` if and only if `size` is not a multiple of 4 or not a multiple of
`nThreads`; `matmulQ40` if and only if `n` is not a multiple of 256; `matmulQ40vQ80` if and
only if `n` is not a multiple of 32. In every other case the operation completes and
returns its result, except `matmulQ40vQ80` on a build without the vector capability, which
then ends in the fatal "not implemented" exit. -/
theorem C15_size_assertions {α : Type} [Field α] (bld : Build) (sqrtf : α → α)
    (convertF16ToF32 : Nat → α) (a b x o weight : Int → α) (ms : α)
    (size nThreads threadIndex : Nat) (info : MatmulThreadInfo α) (_hT : 1 ≤ nThreads)
    (hsize : size < 2 ^ 31) :
    ((dotProduct bld a b size = Except.error Fault.assertion ↔ size % 4 ≠ 0) ∧
      (size % 4 = 0 → ∃ v, dotProduct bld a b size = Except.ok v)) ∧
    ((rms bld sqrtf x size = Except.error Fault.assertion ↔ size % 4 ≠ 0) ∧
      (size % 4 = 0 → ∃ v, rms bld sqrtf x size = Except.ok v)) ∧
    ((rmsnorm bld o x ms weight size nThreads threadIndex = Except.error Fault.assertion
        ↔ (size % 4 ≠ 0 ∨ size % nThreads ≠ 0)) ∧
      (size % 4 = 0 → size % nThreads = 0 →
        ∃ o1, rmsnorm bld o x ms weight size nThreads threadIndex = Except.ok o1)) ∧
    ((matmulQ40 bld convertF16ToF32 info = Except.error Fault.assertion ↔ info.n % 256 ≠ 0) ∧
      (info.n % 256 = 0 → ∃ s, matmulQ40 bld convertF16ToF32 info = Except.ok s)) ∧
    ((matmulQ40vQ80 bld convertF16ToF32 info = Except.error Fault.assertion
        ↔ info.n % 32 ≠ 0) ∧
      (info.n % 32 = 0 → bld.neon = true →
        ∃ s, matmulQ40vQ80 bld convertF16ToF32 info = Except.ok s) ∧
      (info.n % 32 = 0 → bld.neon = false →
        matmulQ40vQ80 bld convertF16ToF32 info = Except.error Fault.notImplemented)) := by
  have hU := toUInt32_natCast hsize
  have hk : QK40 * 8 = 256 := rfl
  have hq : QK40 = 32 := rfl
  refine ⟨⟨?_, ?_⟩, ⟨?_, ?_⟩, ⟨?_, ?_⟩, ⟨?_, ?_⟩, ⟨?_, ?_, ?_⟩⟩
  · unfold dotProduct
    by_cases h : size % 4 = 0
    · by_cases hb : bld.neon = true <;> simp [h, hb]
    · simp [h]
  · intro h
    unfold dotProduct
    by_cases hb : bld.neon = true <;> simp [h, hb]
  · unfold rms
    by_cases h : size % 4 = 0
    · simp [h]
    · simp [h]
  · intro h
    unfold rms
    simp [h]
  · unfold rmsnorm
    rw [hU]
    by_cases h : size % 4 = 0
    · by_cases h2 : size % nThreads = 0
      · by_cases hb : bld.neon = true <;> simp [h, h2, hb]
      · simp [h, h2]
    · simp [h]
  · intro h h2
    unfold rmsnorm
    rw [hU]
    by_cases hb : bld.neon = true <;> simp [h, h2, hb]
  · unfold matmulQ40
    simp only [hk]
    by_cases h : info.n % 256 = 0
    · by_cases hb : bld.neon = true <;> simp [h, hb]
    · simp [h]
  · intro h
    exact (matmulQ40_returns_iff bld convertF16ToF32 info).1.mpr h
  · unfold matmulQ40vQ80
    simp only [hq]
    by_cases h : info.n % 32 = 0
    · by_cases hb : bld.neon = true <;> simp [h, hb]
    · simp [h]
  · intro h hb
    exact (matmulQ40vQ80_returns_iff bld convertF16ToF32 info).1.mpr ⟨hb, h⟩
  · intro h hb
    exact (matmulQ40vQ80_returns_iff bld convertF16ToF32 info).2.2 hb h

theorem C15_size_assertions_witness :
    ((dotProduct neonBuild (fun i : Int => (i : ℚ)) (fun _ => 1) 6 = Except.error Fault.assertion
        ↔ 6 % 4 ≠ 0) ∧
      (6 % 4 = 0 → ∃ v, dotProduct neonBuild (fun i : Int => (i : ℚ)) (fun _ => 1) 6
        = Except.ok v)) ∧
    ((rms neonBuild exampleSqrtf (fun i : Int => (i : ℚ)) 6 = Except.error Fault.assertion
        ↔ 6 % 4 ≠ 0) ∧
      (6 % 4 = 0 → ∃ v, rms neonBuild exampleSqrtf (fun i : Int => (i : ℚ)) 6 = Except.ok v)) ∧
    ((rmsnorm neonBuild (fun _ => 0) (fun i : Int => (i : ℚ)) 2 (fun _ => 1) 6 3 1
        = Except.error Fault.assertion ↔ (6 % 4 ≠ 0 ∨ 6 % 3 ≠ 0)) ∧
      (6 % 4 = 0 → 6 % 3 = 0 →
        ∃ o1, rmsnorm neonBuild (fun _ => 0) (fun i : Int => (i : ℚ)) 2 (fun _ => 1) 6 3 1
          = Except.ok o1)) ∧
    ((matmulQ40 neonBuild (fun bits => (bits : ℚ))
        exampleInfoQ = Except.error Fault.assertion
        ↔ exampleInfoQ.n % 256 ≠ 0) ∧
      (exampleInfoQ.n % 256 = 0 →
        ∃ s, matmulQ40 neonBuild (fun bits => (bits : ℚ))
          exampleInfoQ = Except.ok s)) ∧
    ((matmulQ40vQ80 neonBuild (fun bits => (bits : ℚ))
        exampleInfoQ = Except.error Fault.assertion
        ↔ exampleInfoQ.n % 32 ≠ 0) ∧
      (exampleInfoQ.n % 32 = 0 → neonBuild.neon = true →
        ∃ s, matmulQ40vQ80 neonBuild (fun bits => (bits : ℚ))
          exampleInfoQ = Except.ok s) ∧
      (exampleInfoQ.n % 32 = 0 → neonBuild.neon = false →
        matmulQ40vQ80 neonBuild (fun bits => (bits : ℚ))
          exampleInfoQ = Except.error Fault.notImplemented)) :=
  C15_size_assertions neonBuild exampleSqrtf (fun bits => (bits : ℚ))
    (fun i : Int => (i : ℚ)) (fun _ => 1) (fun i : Int => (i : ℚ)) (fun _ => 0) (fun _ => 1) 2
    6 3 1 exampleInfoQ (by decide) (by decide)


/-! ## `rmsnorm` -/

theorem forRows_update_aux {α : Type} (val : Int → α) (lo : Int) (o : Int → α) (m : Nat) :
    (List.range m).foldl (fun (o : Int → α) (i : Nat) =>
        Function.update o (lo + (i : Int)) (val (lo + (i : Int)))) o
      = fun i => if lo ≤ i ∧ i < lo + (m : Int) then val i else o i := by
  induction m with
  | zero =>
    simp only [List.range_zero, List.foldl_nil]
    funext i
    rw [if_neg]
    omega
  | succ k ih =>
    rw [List.range_succ, List.foldl_append, ih]
    simp only [List.foldl_cons, List.foldl_nil]
    funext i
    by_cases h : i = lo + (k : Int)
    · subst h
      rw [Function.update_same, if_pos]
      constructor <;> omega
    · rw [Function.update_noteq h]
      by_cases h2 : lo ≤ i ∧ i < lo + (k : Int)
      · rw [if_pos h2, if_pos]
        constructor <;> omega
      · rw [if_neg h2, if_neg]
        push_cast
        omega

/-- The portable loop of `rmsnorm` stores `weight[j] * (ms * x[j])` on `[start, stop)` and
changes nothing else. -/
theorem rmsnormScalar_eq {α : Type} [Mul α] (o x : Int → α) (ms : α) (weight : Int → α)
    (start stop : Int) :
    rmsnormScalar o x ms weight start stop
      = fun i => if start ≤ i ∧ i < stop then weight i * (ms * x i) else o i := by
  unfold rmsnormScalar forRows
  rw [forRows_update_aux (fun j => weight j * (ms * x j))]
  funext i
  by_cases h : start ≤ i ∧ i < stop
  · rw [if_pos h, if_pos]
    constructor <;> omega
  · rw [if_neg h, if_neg]
    omega

theorem vst1q_f32_apply {α : Type} (p : Int → α) (j : Int) (f : Int → α) (i : Int) :
    vst1q_f32 p j ⟨f j, f (j + 1), f (j + 2), f (j + 3)⟩ i
      = if j ≤ i ∧ i < j + 4 then f i else p i := by
  unfold vst1q_f32
  by_cases h3 : i = j + 3
  · subst h3
    rw [Function.update_same, if_pos (by omega)]
  · rw [Function.update_noteq h3]
    by_cases h2 : i = j + 2
    · subst h2
      rw [Function.update_same, if_pos (by omega)]
    · rw [Function.update_noteq h2]
      by_cases h1 : i = j + 1
      · subst h1
        rw [Function.update_same, if_pos (by omega)]
      · rw [Function.update_noteq h1]
        by_cases h0 : i = j
        · subst h0
          rw [Function.update_same, if_pos (by omega)]
        · rw [Function.update_noteq h0, if_neg (by omega)]

theorem forStep4_store_aux {α : Type} (f : Int → α) (lo : Int) (o : Int → α) (c : Nat) :
    (List.range c).foldl (fun (o : Int → α) (i : Nat) =>
        vst1q_f32 o (lo + 4 * (i : Int))
          ⟨f (lo + 4 * (i : Int)), f (lo + 4 * (i : Int) + 1), f (lo + 4 * (i : Int) + 2),
            f (lo + 4 * (i : Int) + 3)⟩) o
      = fun i => if lo ≤ i ∧ i < lo + 4 * (c : Int) then f i else o i := by
  induction c with
  | zero =>
    simp only [List.range_zero, List.foldl_nil]
    funext i
    rw [if_neg]
    omega
  | succ k ih =>
    rw [List.range_succ, List.foldl_append, ih]
    simp only [List.foldl_cons, List.foldl_nil]
    funext i
    rw [vst1q_f32_apply]
    by_cases h : lo + 4 * (k : Int) ≤ i ∧ i < lo + 4 * (k : Int) + 4
    · rw [if_pos h, if_pos]
      push_cast
      omega
    · rw [if_neg h]
      by_cases h2 : lo ≤ i ∧ i < lo + 4 * (k : Int)
      · rw [if_pos h2, if_pos]
        push_cast
        omega
      · rw [if_neg h2, if_neg]
        push_cast
        omega

/-- The vectorized loop of `rmsnorm` stores `(x[j] * weight[j]) * ms` on whole groups of
four entries: on `[start, start + 4 * ⌈(stop - start) / 4⌉)`. -/
theorem rmsnormNeon_eq {α : Type} [Mul α] (o x : Int → α) (ms : α) (weight : Int → α)
    (start stop : Int) :
    rmsnormNeon o x ms weight start stop
      = fun i => if start ≤ i ∧ i < start + 4 * ((((stop - start).toNat + 3) / 4 : Nat) : Int)
          then x i * weight i * ms else o i := by
  unfold rmsnormNeon forStep4
  exact forStep4_store_aux (fun j => x j * weight j * ms) start o _

/-- When the length of the slice is a multiple of 4 the vectorized loop of `rmsnorm` leaves
the buffer that the portable loop leaves (exact arithmetic). -/
theorem rmsnormNeon_eq_scalar {α : Type} [CommSemigroup α] (o x : Int → α) (ms : α)
    (weight : Int → α) (start stop : Int) (h4 : (stop - start).toNat % 4 = 0) :
    rmsnormNeon o x ms weight start stop = rmsnormScalar o x ms weight start stop := by
  rw [rmsnormNeon_eq, rmsnormScalar_eq]
  funext i
  have hc : 4 * ((((stop - start).toNat + 3) / 4 : Nat) : Int) = ((stop - start).toNat : Int) := by
    omega
  rw [hc]
  by_cases h : start ≤ i ∧ i < stop
  · rw [if_pos h, if_pos (by omega)]
    rw [mul_comm (x i) (weight i), mul_assoc, mul_comm (x i) ms]
  · rw [if_neg h, if_neg (by omega)]

/-- The slice length of `rmsnorm` is `⌊size / nThreads⌋`. -/
theorem rmsnormSlice_eq (size nThreads : Nat) (hsize : size < 2 ^ 31) :
    rmsnormSlice size nThreads = ((size / nThreads : Nat) : Int) := by
  unfold rmsnormSlice
  rw [toUInt32_natCast hsize]
  apply toInt32_of_lt
  have := Nat.div_le_self size nThreads
  omega

/-- The slice of thread `t ≤ nThreads` starts at `t * ⌊size / nThreads⌋`. -/
theorem rmsnormStart_eq (size nThreads t : Nat) (_hT : 1 ≤ nThreads) (hsize : size < 2 ^ 31)
    (ht : t ≤ nThreads) :
    rmsnormStart size nThreads t = ((t * (size / nThreads) : Nat) : Int) := by
  unfold rmsnormStart
  rw [rmsnormSlice_eq size nThreads hsize]
  have hs : size / nThreads < 2 ^ 31 := by
    have := Nat.div_le_self size nThreads
    omega
  rw [toUInt32_natCast hs]
  have hle : t * (size / nThreads) ≤ size := by
    calc t * (size / nThreads) ≤ nThreads * (size / nThreads) := Nat.mul_le_mul_right _ ht
      _ ≤ size := Nat.mul_div_le size nThreads
  rw [Nat.mod_eq_of_lt (by omega)]
  exact toInt32_of_lt (by omega)

/-- The slice of thread `t < nThreads` ends at `(t + 1) * ⌊size / nThreads⌋`. -/
theorem rmsnormEnd_eq (size nThreads t : Nat) (hT : 1 ≤ nThreads) (hsize : size < 2 ^ 31)
    (ht : t < nThreads) :
    rmsnormEnd size nThreads t = (((t + 1) * (size / nThreads) : Nat) : Int) := by
  unfold rmsnormEnd
  rw [rmsnormStart_eq size nThreads t hT hsize (by omega), rmsnormSlice_eq size nThreads hsize]
  push_cast
  ring

/-- The slices of `rmsnorm` partition `[0, size)` when `nThreads` divides `size`: the first
starts at `0`, each ends where the next begins, the last ends at `size`, every index lies
in exactly one slice, and two different slices share no index. -/
theorem rmsnorm_slices_partition (size nThreads : Nat) (hT : 1 ≤ nThreads)
    (hsize : size < 2 ^ 31) (hdiv : size % nThreads = 0) :
    rmsnormStart size nThreads 0 = 0 ∧
    (∀ t, t + 1 < nThreads →
      rmsnormEnd size nThreads t = rmsnormStart size nThreads (t + 1)) ∧
    rmsnormEnd size nThreads (nThreads - 1) = (size : Int) ∧
    (∀ j : Int, 0 ≤ j → j < (size : Int) →
      ∃! t, t < nThreads ∧ rmsnormStart size nThreads t ≤ j ∧ j < rmsnormEnd size nThreads t) ∧
    (∀ t u, t < nThreads → u < nThreads → t ≠ u → ∀ j : Int,
      ¬ ((rmsnormStart size nThreads t ≤ j ∧ j < rmsnormEnd size nThreads t) ∧
        (rmsnormStart size nThreads u ≤ j ∧ j < rmsnormEnd size nThreads u))) := by
  have hfull : nThreads * (size / nThreads) = size := Nat.mul_div_cancel' (Nat.dvd_of_mod_eq_zero hdiv)
  have hmono : ∀ {s t : Nat}, s ≤ t → s * (size / nThreads) ≤ t * (size / nThreads) :=
    fun h => Nat.mul_le_mul_right _ h
  have hdisj : ∀ t u, t < nThreads → u < nThreads → t < u → ∀ j : Int,
      ¬ ((rmsnormStart size nThreads t ≤ j ∧ j < rmsnormEnd size nThreads t) ∧
        (rmsnormStart size nThreads u ≤ j ∧ j < rmsnormEnd size nThreads u)) := by
    intro t u ht hu htu j
    rw [rmsnormEnd_eq size nThreads t hT hsize ht,
      rmsnormStart_eq size nThreads u hT hsize (by omega)]
    rintro ⟨⟨_, h1⟩, ⟨h2, _⟩⟩
    have h3 : (((t + 1) * (size / nThreads) : Nat) : Int) ≤ ((u * (size / nThreads) : Nat) : Int) := by
      exact_mod_cast hmono (show t + 1 ≤ u by omega)
    omega
  refine ⟨?_, ?_, ?_, ?_, ?_⟩
  · rw [rmsnormStart_eq size nThreads 0 hT hsize (by omega)]
    simp
  · intro t ht
    rw [rmsnormEnd_eq size nThreads t hT hsize (by omega),
      rmsnormStart_eq size nThreads (t + 1) hT hsize (by omega)]
  · rw [rmsnormEnd_eq size nThreads (nThreads - 1) hT hsize (by omega)]
    have : nThreads - 1 + 1 = nThreads := by omega
    rw [this, hfull]
  · intro j hj0 hjs
    obtain ⟨j, rfl⟩ := Int.eq_ofNat_of_zero_le hj0
    have hjs : j < size := by exact_mod_cast hjs
    obtain ⟨t, htT, h1, h2⟩ := exists_segment (fun t => t * (size / nThreads)) j (by simp)
      nThreads (by show j < nThreads * (size / nThreads); omega)
    have h1 : t * (size / nThreads) ≤ j := h1
    have h2 : j < (t + 1) * (size / nThreads) := h2
    refine ⟨t, ⟨htT, ?_, ?_⟩, ?_⟩
    · rw [rmsnormStart_eq size nThreads t hT hsize (by omega)]
      exact_mod_cast h1
    · rw [rmsnormEnd_eq size nThreads t hT hsize htT]
      exact_mod_cast h2
    · rintro u ⟨huT, hu1, hu2⟩
      have hin : (rmsnormStart size nThreads t ≤ (j : Int) ∧ (j : Int) < rmsnormEnd size nThreads t) := by
        rw [rmsnormStart_eq size nThreads t hT hsize (by omega),
          rmsnormEnd_eq size nThreads t hT hsize htT]
        exact ⟨by exact_mod_cast h1, by exact_mod_cast h2⟩
      rcases Nat.lt_trichotomy u t with hlt | heq | hgt
      · exact absurd ⟨⟨hu1, hu2⟩, hin⟩ (hdisj u t huT htT hlt j)
      · exact heq
      · exact absurd ⟨hin, ⟨hu1, hu2⟩⟩ (hdisj t u htT huT hgt j)
  · intro t u ht hu hne j
    rcases Nat.lt_or_gt_of_ne hne with h | h
    · exact hdisj t u ht hu h j
    · intro hc
      exact hdisj u t hu ht h j ⟨hc.2, hc.1⟩

/-- What `rmsnorm` computes where its loop stays inside the slice: on the portable path, and
on the vectorized path when the slice length is a multiple of 4, the call returns,
`output[j] = weight[j] * (ms * x[j])` on the slice and `output[j]` is unchanged outside. -/
theorem rmsnorm_on_slice {α : Type} [CommSemigroup α] (bld : Build) (o x : Int → α) (ms : α)
    (weight : Int → α) (size nThreads threadIndex : Nat) (_hT : 1 ≤ nThreads)
    (hsize : size < 2 ^ 31) (h4 : size % 4 = 0) (hdiv : size % nThreads = 0)
    (hb : bld.neon = false ∨ (size / nThreads) % 4 = 0) :
    ∃ o1, rmsnorm bld o x ms weight size nThreads threadIndex = Except.ok o1 ∧
      ∀ j : Int, o1 j = if rmsnormStart size nThreads threadIndex ≤ j ∧
          j < rmsnormEnd size nThreads threadIndex then weight j * (ms * x j) else o j := by
  unfold rmsnorm
  rw [toUInt32_natCast hsize, if_neg (by omega), if_neg (by omega)]
  by_cases hn : bld.neon = true
  · have hs4 : (size / nThreads) % 4 = 0 := by
      rcases hb with h | h
      · rw [hn] at h; cases h
      · exact h
    rw [if_pos hn]
    refine ⟨_, rfl, ?_⟩
    intro j
    rw [rmsnormNeon_eq_scalar, rmsnormScalar_eq]
    · rfl
    · rw [rmsnormSlice_eq size nThreads hsize]
      have e : rmsnormStart size nThreads threadIndex + ((size / nThreads : Nat) : Int)
          - rmsnormStart size nThreads threadIndex = ((size / nThreads : Nat) : Int) := by ring
      rw [e, Int.toNat_ofNat]
      exact hs4
  · rw [if_neg hn]
    refine ⟨_, rfl, ?_⟩
    intro j
    rw [rmsnormScalar_eq]
    rfl

/-- C12 (the code at the failing input): `size = 4`, `nThreads = 2`, `threadIndex = 0`, so
the slice is `[0, 2)`; `x = 1 2 3 4`, `weight = 10`, `ms = 2`, the output starts as zeros.
Both assertions hold. The portable loop leaves `output[2] = 0`; the vectorized loop stores
four lanes at `j = 0` and leaves `output[2] = 60` and `output[3] = 80`, outside the slice. -/
theorem C12_neon_store_leaves_slice :
    4 % 4 = 0 ∧ 4 % 2 = 0 ∧ rmsnormStart 4 2 0 = 0 ∧ rmsnormEnd 4 2 0 = 2 ∧
    bufferAt (rmsnorm portableBuild (fun _ => (0 : Int)) (fun i => i + 1) 2 (fun _ => 10)
      4 2 0) 2 = some 0 ∧
    bufferAt (rmsnorm neonBuild (fun _ => (0 : Int)) (fun i => i + 1) 2 (fun _ => 10)
      4 2 0) 2 = some 60 ∧
    bufferAt (rmsnorm neonBuild (fun _ => (0 : Int)) (fun i => i + 1) 2 (fun _ => 10)
      4 2 0) 3 = some 80 := by
  decide

/-- C13 (the code at the failing input): `size = 4`, `nThreads = 2`, the slices are `[0, 2)`
and `[2, 4)`, the output starts as `-1` everywhere. On the vectorized path the call of
thread 0 writes `output[2]`, the call of thread 1 writes `output[2]` too, and also
`output[4]`, which is outside the vector. -/
theorem C13_neon_threads_write_same_entry :
    rmsnormStart 4 2 0 = 0 ∧ rmsnormEnd 4 2 0 = 2 ∧
    rmsnormStart 4 2 1 = 2 ∧ rmsnormEnd 4 2 1 = 4 ∧
    bufferAt (rmsnorm neonBuild (fun _ => (-1 : Int)) (fun i => i + 1) 2 (fun _ => 10)
      4 2 0) 2 = some 60 ∧
    bufferAt (rmsnorm neonBuild (fun _ => (-1 : Int)) (fun i => i + 1) 2 (fun _ => 10)
      4 2 1) 2 = some 60 ∧
    bufferAt (rmsnorm neonBuild (fun _ => (-1 : Int)) (fun i => i + 1) 2 (fun _ => 10)
      4 2 1) 4 = some 100 := by
  decide

/-- C17 (the code at the failing input): `size = 8`, `nThreads = 4`, `threadIndex = 3`, so
`[start, end) = [6, 8)`; both assertions hold. The two paths agree on `[6, 8)`, but the
vectorized path stores `output[6 .. 9]`: it leaves `output[8] = 180` and
`output[9] = 200` where the portable path leaves the zeros that were there. -/
theorem C17_neon_differs_from_scalar :
    8 % 4 = 0 ∧ 8 % 4 = 0 ∧ rmsnormStart 8 4 3 = 6 ∧ rmsnormEnd 8 4 3 = 8 ∧
    bufferAt (rmsnorm neonBuild (fun _ => (0 : Int)) (fun i => i + 1) 2 (fun _ => 10)
      8 4 3) 7 = some 160 ∧
    bufferAt (rmsnorm portableBuild (fun _ => (0 : Int)) (fun i => i + 1) 2 (fun _ => 10)
      8 4 3) 7 = some 160 ∧
    bufferAt (rmsnorm neonBuild (fun _ => (0 : Int)) (fun i => i + 1) 2 (fun _ => 10)
      8 4 3) 8 = some 180 ∧
    bufferAt (rmsnorm portableBuild (fun _ => (0 : Int)) (fun i => i + 1) 2 (fun _ => 10)
      8 4 3) 8 = some 0 ∧
    bufferAt (rmsnorm neonBuild (fun _ => (0 : Int)) (fun i => i + 1) 2 (fun _ => 10)
      8 4 3) 9 = some 200 := by
  decide


/-! ## The vectorized maximum of `softmax` -/

/-- A running maximum over `f 0, f 1, ..., f c` is one of these values and bounds them. -/
theorem foldl_max_spec {α : Type} [LinearOrder α] (f : Nat → α) (c : Nat) :
    (∃ i, i ≤ c ∧ (List.range c).foldl (fun (a : α) (i : Nat) => max a (f (i + 1))) (f 0) = f i) ∧
    ∀ i, i ≤ c → f i ≤ (List.range c).foldl (fun (a : α) (i : Nat) => max a (f (i + 1))) (f 0) := by
  induction c with
  | zero =>
    simp only [List.range_zero, List.foldl_nil]
    refine ⟨⟨0, le_refl 0, rfl⟩, ?_⟩
    intro i hi
    have : i = 0 := by omega
    subst this
    exact le_refl _
  | succ k ih =>
    rw [List.range_succ, List.foldl_append]
    simp only [List.foldl_cons, List.foldl_nil]
    obtain ⟨⟨i0, hi0, he⟩, hle⟩ := ih
    constructor
    · rcases max_choice ((List.range k).foldl (fun (a : α) (i : Nat) => max a (f (i + 1))) (f 0))
        (f (k + 1)) with h | h
      · exact ⟨i0, by omega, by rw [h, he]⟩
      · exact ⟨k + 1, le_refl _, h⟩
    · intro i hi
      by_cases hik : i ≤ k
      · exact le_trans (hle i hik) (le_max_left _ _)
      · have : i = k + 1 := by omega
        subst this
        exact le_max_right _ _

/-- The four lanes of the vectorized maximum are four running maxima. -/
theorem foldl_vmaxq_lanes {α : Type} [LinearOrder α] (x : Int → α) (c : Nat) :
    (List.range c).foldl (fun (fmaxv : F32x4 α) (i : Nat) =>
        vmaxq_f32 fmaxv (vld1q_f32 x ((4 + 4 * i : Nat) : Int))) (vld1q_f32 x 0)
      = ⟨(List.range c).foldl (fun (a : α) (i : Nat) =>
            max a ((fun i : Nat => x ((4 * i : Nat) : Int)) (i + 1)))
            ((fun i : Nat => x ((4 * i : Nat) : Int)) 0),
         (List.range c).foldl (fun (a : α) (i : Nat) =>
            max a ((fun i : Nat => x ((4 * i + 1 : Nat) : Int)) (i + 1)))
            ((fun i : Nat => x ((4 * i + 1 : Nat) : Int)) 0),
         (List.range c).foldl (fun (a : α) (i : Nat) =>
            max a ((fun i : Nat => x ((4 * i + 2 : Nat) : Int)) (i + 1)))
            ((fun i : Nat => x ((4 * i + 2 : Nat) : Int)) 0),
         (List.range c).foldl (fun (a : α) (i : Nat) =>
            max a ((fun i : Nat => x ((4 * i + 3 : Nat) : Int)) (i + 1)))
            ((fun i : Nat => x ((4 * i + 3 : Nat) : Int)) 0)⟩ := by
  induction c with
  | zero =>
    simp only [List.range_zero, List.foldl_nil, vld1q_f32]
    norm_num
  | succ k ih =>
    rw [List.range_succ, List.foldl_append, ih]
    simp only [List.foldl_append, List.foldl_cons, List.foldl_nil, vmaxq_f32, vld1q_f32]
    have e0 : ((4 + 4 * k : Nat) : Int) = ((4 * (k + 1) : Nat) : Int) := by push_cast; ring
    rw [e0]
    simp only [Nat.cast_add, Nat.cast_one, Nat.cast_ofNat]

/-- For a size `4 * (c + 1)` the vectorized search finds the maximum of
`x[0 .. size - 1]`. -/
theorem softmaxMaxNeon_isMax {α : Type} [LinearOrder α] (x : Int → α) (c : Nat) :
    (∃ j : Nat, j < 4 * (c + 1) ∧ x j = softmaxMaxNeon x (4 * (c + 1))) ∧
    ∀ j : Nat, j < 4 * (c + 1) → x j ≤ softmaxMaxNeon x (4 * (c + 1)) := by
  unfold softmaxMaxNeon forStep
  have hc : (4 * (c + 1) - 4 + (4 - 1)) / 4 = c := by omega
  rw [hc]
  dsimp only
  rw [foldl_vmaxq_lanes]
  obtain ⟨⟨i0, hi0, h0⟩, b0⟩ := foldl_max_spec (fun i : Nat => x ((4 * i : Nat) : Int)) c
  obtain ⟨⟨i1, hi1, h1⟩, b1⟩ := foldl_max_spec (fun i : Nat => x ((4 * i + 1 : Nat) : Int)) c
  obtain ⟨⟨i2, hi2, h2⟩, b2⟩ := foldl_max_spec (fun i : Nat => x ((4 * i + 2 : Nat) : Int)) c
  obtain ⟨⟨i3, hi3, h3⟩, b3⟩ := foldl_max_spec (fun i : Nat => x ((4 * i + 3 : Nat) : Int)) c
  simp only [vmaxvq_f32]
  generalize (List.range c).foldl (fun (a : α) (i : Nat) =>
    max a ((fun i : Nat => x ((4 * i : Nat) : Int)) (i + 1)))
    ((fun i : Nat => x ((4 * i : Nat) : Int)) 0) = a0 at h0 b0 ⊢
  generalize (List.range c).foldl (fun (a : α) (i : Nat) =>
    max a ((fun i : Nat => x ((4 * i + 1 : Nat) : Int)) (i + 1)))
    ((fun i : Nat => x ((4 * i + 1 : Nat) : Int)) 0) = a1 at h1 b1 ⊢
  generalize (List.range c).foldl (fun (a : α) (i : Nat) =>
    max a ((fun i : Nat => x ((4 * i + 2 : Nat) : Int)) (i + 1)))
    ((fun i : Nat => x ((4 * i + 2 : Nat) : Int)) 0) = a2 at h2 b2 ⊢
  generalize (List.range c).foldl (fun (a : α) (i : Nat) =>
    max a ((fun i : Nat => x ((4 * i + 3 : Nat) : Int)) (i + 1)))
    ((fun i : Nat => x ((4 * i + 3 : Nat) : Int)) 0) = a3 at h3 b3 ⊢
  constructor
  · rcases max_choice (max a0 a1) (max a2 a3) with h | h
    · rcases max_choice a0 a1 with h' | h'
      · exact ⟨4 * i0, by omega, by rw [h, h', h0]⟩
      · exact ⟨4 * i1 + 1, by omega, by rw [h, h', h1]⟩
    · rcases max_choice a2 a3 with h' | h'
      · exact ⟨4 * i2 + 2, by omega, by rw [h, h', h2]⟩
      · exact ⟨4 * i3 + 3, by omega, by rw [h, h', h3]⟩
  · intro j hj
    have hq : j / 4 ≤ c := by omega
    have hr : j % 4 = 0 ∨ j % 4 = 1 ∨ j % 4 = 2 ∨ j % 4 = 3 := by omega
    rcases hr with hr | hr | hr | hr
    · have e : j = 4 * (j / 4) := by omega
      have hb := b0 (j / 4) hq
      simp only [← e] at hb
      exact le_trans hb (le_trans (le_max_left a0 a1) (le_max_left _ _))
    · have e : j = 4 * (j / 4) + 1 := by omega
      have hb := b1 (j / 4) hq
      simp only [← e] at hb
      exact le_trans hb (le_trans (le_max_right a0 a1) (le_max_left _ _))
    · have e : j = 4 * (j / 4) + 2 := by omega
      have hb := b2 (j / 4) hq
      simp only [← e] at hb
      exact le_trans hb (le_trans (le_max_left a2 a3) (le_max_right _ _))
    · have e : j = 4 * (j / 4) + 3 := by omega
      have hb := b3 (j / 4) hq
      simp only [← e] at hb
      exact le_trans hb (le_trans (le_max_right a2 a3) (le_max_right _ _))

/-- For a size that is a positive multiple of 4 the two searches of `softmax` return the
same maximum, and `softmax` the same buffer on both builds. -/
theorem softmax_neon_eq_scalar_of_aligned {α : Type} [LinearOrderedField α] (expf : α → α)
    (x : Int → α) (size : Nat) (hsize : 1 ≤ size) (h4 : size % 4 = 0) :
    softmaxMaxNeon x size = softmaxMaxScalar x size ∧
    softmax neonBuild expf x size = softmax portableBuild expf x size := by
  obtain ⟨c, rfl⟩ : ∃ c, size = 4 * (c + 1) := ⟨size / 4 - 1, by omega⟩
  have hmax : softmaxMaxNeon x (4 * (c + 1)) = softmaxMaxScalar x (4 * (c + 1)) := by
    obtain ⟨⟨j1, hj1, e1⟩, b1⟩ := softmaxMaxNeon_isMax x c
    obtain ⟨⟨j2, hj2, e2⟩, b2⟩ := softmaxMaxScalar_isMax x (4 * (c + 1)) hsize
    apply le_antisymm
    · rw [← e1]; exact b2 j1 hj1
    · rw [← e2]; exact b1 j2 hj2
  refine ⟨hmax, ?_⟩
  unfold softmax
  simp only [neonBuild, portableBuild, if_true, Bool.false_eq_true, if_false, hmax]

/-- C18 (the code at the failing input): `size = 2` and the vector `0, 1`. The portable
search returns the maximum `1`. The vectorized search loads `x[0 .. 3]`: with `5` behind
the vector it returns `5`, with `9` behind the same vector it returns `9`, so it reads
`x[2]`, an element at an index `≥ size`, and its result is not the maximum of
`x[0 .. size - 1]`. -/
theorem C18_neon_max_reads_past_size :
    (exampleVector 5 0 = exampleVector 9 0 ∧ exampleVector 5 1 = exampleVector 9 1) ∧
    softmaxMaxScalar (exampleVector 5) 2 = 1 ∧ softmaxMaxScalar (exampleVector 9) 2 = 1 ∧
    softmaxMaxNeon (exampleVector 5) 2 = 5 ∧ softmaxMaxNeon (exampleVector 9) 2 = 9 := by
  decide


/-! ## The integer dot product of a block pair -/

theorem lowNibble_lt (byte : Nat) : lowNibble byte < 16 := by
  unfold lowNibble
  have h := @Nat.and_le_right (byte % 256) 0x0F
  omega

theorem highNibble_lt (byte : Nat) : highNibble byte < 16 := by
  unfold highNibble
  rw [Nat.shiftRight_eq_div_pow]
  have := Nat.mod_lt byte (show 0 < 256 by decide)
  omega

theorem q4Low_range (x : BlockQ40) (i : Nat) : -8 ≤ q4Low x i ∧ q4Low x i ≤ 7 := by
  unfold q4Low
  have := lowNibble_lt (x.qs i)
  omega

theorem q4High_range (x : BlockQ40) (i : Nat) : -8 ≤ q4High x i ∧ q4High x i ≤ 7 := by
  unfold q4High
  have := highNibble_lt (x.qs i)
  omega

/-- The lanes of the unpacked block are the nibbles minus 8; the subtraction in `int8_t`
does not wrap. -/
theorem unpackQ40_eq (x : BlockQ40) (i : Nat) :
    (unpackQ40 x).1 i = q4Low x i ∧ (unpackQ40 x).2 i = q4High x i := by
  have hl := lowNibble_lt (x.qs i)
  have hh := highNibble_lt (x.qs i)
  unfold unpackQ40 vsubq_s8 vreinterpretq_s8_u8 vandq_u8 vshrq_n_u8 vld1q_u8 wrapS8 q4Low q4High
  unfold lowNibble at hl ⊢
  unfold highNibble at hh ⊢
  dsimp only
  constructor <;> omega

/-- A product of a 4-bit magnitude and an 8-bit magnitude lies in `[-1024, 1024]`, inside
the `int16_t` range. -/
theorem product_range (a b : Int) (ha : -8 ≤ a ∧ a ≤ 7) (hb : -128 ≤ b ∧ b ≤ 127) :
    -1024 ≤ a * b ∧ a * b ≤ 1024 := by
  obtain ⟨ha1, ha2⟩ := ha
  interval_cases a <;> omega

theorem vld1q_s8_eq (y : BlockQ80) (hy : ∀ i, i < 32 → -128 ≤ y.qs i ∧ y.qs i ≤ 127)
    (off i : Nat) (hi : off + i < 32) : vld1q_s8 y.qs off i = y.qs (off + i) := by
  unfold vld1q_s8 wrapS8
  have := hy (off + i) hi
  omega

/-- One `vdotq_s32` step on in-range lanes is exact: the `int32_t` accumulation does not
wrap. -/
theorem vdotq_s32_exact (r a b : Nat → Int) (k : Nat) (R : Int) (hR : 0 ≤ R ∧ R ≤ 4096)
    (hr : -R ≤ r k ∧ r k ≤ R)
    (ha : ∀ i, i < 4 → -8 ≤ a (4 * k + i) ∧ a (4 * k + i) ≤ 7)
    (hb : ∀ i, i < 4 → -128 ≤ b (4 * k + i) ∧ b (4 * k + i) ≤ 127) :
    vdotq_s32 r a b k = r k + a (4 * k) * b (4 * k) + a (4 * k + 1) * b (4 * k + 1)
        + a (4 * k + 2) * b (4 * k + 2) + a (4 * k + 3) * b (4 * k + 3) ∧
    -(R + 4096) ≤ vdotq_s32 r a b k ∧ vdotq_s32 r a b k ≤ R + 4096 := by
  have p0 := product_range _ _ (ha 0 (by omega)) (hb 0 (by omega))
  have p1 := product_range _ _ (ha 1 (by omega)) (hb 1 (by omega))
  have p2 := product_range _ _ (ha 2 (by omega)) (hb 2 (by omega))
  have p3 := product_range _ _ (ha 3 (by omega)) (hb 3 (by omega))
  simp only [Nat.add_zero] at p0
  unfold vdotq_s32 wrapS32
  generalize a (4 * k) * b (4 * k) = P0 at p0 ⊢
  generalize a (4 * k + 1) * b (4 * k + 1) = P1 at p1 ⊢
  generalize a (4 * k + 2) * b (4 * k + 2) = P2 at p2 ⊢
  generalize a (4 * k + 3) * b (4 * k + 3) = P3 at p3 ⊢
  omega

theorem wrapS8_range (v : Int) : -128 ≤ wrapS8 v ∧ wrapS8 v ≤ 127 := by
  unfold wrapS8
  omega

/-- The lanes of the variant with the dot-product instruction: lane `k` is the exact sum of
the eight products at the positions `4 k .. 4 k + 3` of the low and of the high half. -/
theorem blockDotDotprod_lane (x : BlockQ40) (y : BlockQ80)
    (hy : ∀ i, i < 32 → -128 ≤ y.qs i ∧ y.qs i ≤ 127) (k : Nat) (hk : k < 4) :
    blockDotDotprod x y k
      = q4Low x (4 * k) * y.qs (4 * k) + q4Low x (4 * k + 1) * y.qs (4 * k + 1)
        + q4Low x (4 * k + 2) * y.qs (4 * k + 2) + q4Low x (4 * k + 3) * y.qs (4 * k + 3)
        + q4High x (4 * k) * y.qs (16 + 4 * k) + q4High x (4 * k + 1) * y.qs (16 + (4 * k + 1))
        + q4High x (4 * k + 2) * y.qs (16 + (4 * k + 2))
        + q4High x (4 * k + 3) * y.qs (16 + (4 * k + 3)) ∧
    -8192 ≤ blockDotDotprod x y k ∧ blockDotDotprod x y k ≤ 8192 := by
  have hlo : ∀ i, (unpackQ40 x).1 i = q4Low x i := fun i => (unpackQ40_eq x i).1
  have hhi : ∀ i, (unpackQ40 x).2 i = q4High x i := fun i => (unpackQ40_eq x i).2
  have h1 := vdotq_s32_exact (fun _ => 0) (unpackQ40 x).1 (vld1q_s8 y.qs 0) k 0
    (by omega) (by simp) (fun i _ => by rw [hlo]; exact q4Low_range x _)
    (fun i _ => wrapS8_range _)
  have h2 := vdotq_s32_exact (vdotq_s32 (fun _ => 0) (unpackQ40 x).1 (vld1q_s8 y.qs 0))
    (unpackQ40 x).2 (vld1q_s8 y.qs 16) k 4096 (by omega) (by omega)
    (fun i _ => by rw [hhi]; exact q4High_range x _) (fun i _ => wrapS8_range _)
  have e0 := vld1q_s8_eq y hy 0 (4 * k) (by omega)
  have e1 := vld1q_s8_eq y hy 0 (4 * k + 1) (by omega)
  have e2 := vld1q_s8_eq y hy 0 (4 * k + 2) (by omega)
  have e3 := vld1q_s8_eq y hy 0 (4 * k + 3) (by omega)
  have f0 := vld1q_s8_eq y hy 16 (4 * k) (by omega)
  have f1 := vld1q_s8_eq y hy 16 (4 * k + 1) (by omega)
  have f2 := vld1q_s8_eq y hy 16 (4 * k + 2) (by omega)
  have f3 := vld1q_s8_eq y hy 16 (4 * k + 3) (by omega)
  simp only [Nat.zero_add] at e0 e1 e2 e3
  unfold blockDotDotprod
  refine ⟨?_, by omega, by omega⟩
  rw [h2.1, h1.1]
  simp only [hlo, hhi, e0, e1, e2, e3, f0, f1, f2, f3]
  ring

/-- The lanes of the variant with widening multiplies: lane `k` is the exact sum of the
eight products at the positions `2 k, 2 k + 1` of the four quarters; no product wraps in
`int16_t` and no sum wraps in `int32_t`. -/
theorem blockDotWiden_lane (x : BlockQ40) (y : BlockQ80)
    (hy : ∀ i, i < 32 → -128 ≤ y.qs i ∧ y.qs i ≤ 127) (k : Nat) (hk : k < 4) :
    blockDotWiden x y k
      = q4Low x (2 * k) * y.qs (2 * k) + q4Low x (2 * k + 1) * y.qs (2 * k + 1)
        + q4Low x (8 + 2 * k) * y.qs (8 + 2 * k)
        + q4Low x (8 + (2 * k + 1)) * y.qs (8 + (2 * k + 1))
        + q4High x (2 * k) * y.qs (16 + 2 * k)
        + q4High x (2 * k + 1) * y.qs (16 + (2 * k + 1))
        + q4High x (8 + 2 * k) * y.qs (16 + (8 + 2 * k))
        + q4High x (8 + (2 * k + 1)) * y.qs (16 + (8 + (2 * k + 1))) ∧
    -8192 ≤ blockDotWiden x y k ∧ blockDotWiden x y k ≤ 8192 := by
  have hlo : ∀ i, (unpackQ40 x).1 i = q4Low x i := fun i => (unpackQ40_eq x i).1
  have hhi : ∀ i, (unpackQ40 x).2 i = q4High x i := fun i => (unpackQ40_eq x i).2
  have e0 := vld1q_s8_eq y hy 0 (2 * k) (by omega)
  have e1 := vld1q_s8_eq y hy 0 (2 * k + 1) (by omega)
  have e2 := vld1q_s8_eq y hy 0 (8 + 2 * k) (by omega)
  have e3 := vld1q_s8_eq y hy 0 (8 + (2 * k + 1)) (by omega)
  have f0 := vld1q_s8_eq y hy 16 (2 * k) (by omega)
  have f1 := vld1q_s8_eq y hy 16 (2 * k + 1) (by omega)
  have f2 := vld1q_s8_eq y hy 16 (8 + 2 * k) (by omega)
  have f3 := vld1q_s8_eq y hy 16 (8 + (2 * k + 1)) (by omega)
  simp only [Nat.zero_add] at e0 e1 e2 e3
  have p0 := product_range _ _ (q4Low_range x (2 * k)) (hy (2 * k) (by omega))
  have p1 := product_range _ _ (q4Low_range x (2 * k + 1)) (hy (2 * k + 1) (by omega))
  have p2 := product_range _ _ (q4Low_range x (8 + 2 * k)) (hy (8 + 2 * k) (by omega))
  have p3 := product_range _ _ (q4Low_range x (8 + (2 * k + 1)))
    (hy (8 + (2 * k + 1)) (by omega))
  have q0 := product_range _ _ (q4High_range x (2 * k)) (hy (16 + 2 * k) (by omega))
  have q1 := product_range _ _ (q4High_range x (2 * k + 1)) (hy (16 + (2 * k + 1)) (by omega))
  have q2 := product_range _ _ (q4High_range x (8 + 2 * k)) (hy (16 + (8 + 2 * k)) (by omega))
  have q3 := product_range _ _ (q4High_range x (8 + (2 * k + 1)))
    (hy (16 + (8 + (2 * k + 1))) (by omega))
  unfold blockDotWiden vaddq_s32 vpaddlq_s16 vmull_s8 vget_low_s8 vget_high_s8
  simp only [hlo, hhi, e0, e1, e2, e3, f0, f1, f2, f3]
  generalize q4Low x (2 * k) * y.qs (2 * k) = P0 at p0 ⊢
  generalize q4Low x (2 * k + 1) * y.qs (2 * k + 1) = P1 at p1 ⊢
  generalize q4Low x (8 + 2 * k) * y.qs (8 + 2 * k) = P2 at p2 ⊢
  generalize q4Low x (8 + (2 * k + 1)) * y.qs (8 + (2 * k + 1)) = P3 at p3 ⊢
  generalize q4High x (2 * k) * y.qs (16 + 2 * k) = Q0 at q0 ⊢
  generalize q4High x (2 * k + 1) * y.qs (16 + (2 * k + 1)) = Q1 at q1 ⊢
  generalize q4High x (8 + 2 * k) * y.qs (16 + (8 + 2 * k)) = Q2 at q2 ⊢
  generalize q4High x (8 + (2 * k + 1)) * y.qs (16 + (8 + (2 * k + 1))) = Q3 at q3 ⊢
  unfold wrapS32 wrapS16
  omega

theorem blockIntSum_expand (x : BlockQ40) (y : BlockQ80) :
    blockIntSum x y
      = q4Low x 0 * y.qs 0 + q4High x 0 * y.qs 16 + (q4Low x 1 * y.qs 1 + q4High x 1 * y.qs 17)
        + (q4Low x 2 * y.qs 2 + q4High x 2 * y.qs 18)
        + (q4Low x 3 * y.qs 3 + q4High x 3 * y.qs 19)
        + (q4Low x 4 * y.qs 4 + q4High x 4 * y.qs 20)
        + (q4Low x 5 * y.qs 5 + q4High x 5 * y.qs 21)
        + (q4Low x 6 * y.qs 6 + q4High x 6 * y.qs 22)
        + (q4Low x 7 * y.qs 7 + q4High x 7 * y.qs 23)
        + (q4Low x 8 * y.qs 8 + q4High x 8 * y.qs 24)
        + (q4Low x 9 * y.qs 9 + q4High x 9 * y.qs 25)
        + (q4Low x 10 * y.qs 10 + q4High x 10 * y.qs 26)
        + (q4Low x 11 * y.qs 11 + q4High x 11 * y.qs 27)
        + (q4Low x 12 * y.qs 12 + q4High x 12 * y.qs 28)
        + (q4Low x 13 * y.qs 13 + q4High x 13 * y.qs 29)
        + (q4Low x 14 * y.qs 14 + q4High x 14 * y.qs 30)
        + (q4Low x 15 * y.qs 15 + q4High x 15 * y.qs 31) := by
  unfold blockIntSum q4Low q4High
  simp only [Finset.sum_range_succ, Finset.sum_range_zero, zero_add]

theorem blockDotDotprod_total (x : BlockQ40) (y : BlockQ80)
    (hy : ∀ i, i < 32 → -128 ≤ y.qs i ∧ y.qs i ≤ 127) :
    laneTotal (blockDotDotprod x y) = blockIntSum x y := by
  unfold laneTotal
  rw [(blockDotDotprod_lane x y hy 0 (by decide)).1, (blockDotDotprod_lane x y hy 1 (by decide)).1,
    (blockDotDotprod_lane x y hy 2 (by decide)).1, (blockDotDotprod_lane x y hy 3 (by decide)).1,
    blockIntSum_expand]
  norm_num
  ring

theorem blockDotWiden_total (x : BlockQ40) (y : BlockQ80)
    (hy : ∀ i, i < 32 → -128 ≤ y.qs i ∧ y.qs i ≤ 127) :
    laneTotal (blockDotWiden x y) = blockIntSum x y := by
  unfold laneTotal
  rw [(blockDotWiden_lane x y hy 0 (by decide)).1, (blockDotWiden_lane x y hy 1 (by decide)).1,
    (blockDotWiden_lane x y hy 2 (by decide)).1, (blockDotWiden_lane x y hy 3 (by decide)).1,
    blockIntSum_expand]
  norm_num
  ring

/-- C20: the integer dot product of a block pair is exact and the same in both vectorized
variants. For every 4-bit block and every 8-bit block (magnitudes in the `int8_t` range):
each nibble minus 8 lies in `-8 .. 7` and is what the unpacking yields, every product lies
in the `int16_t` range, every lane of either variant lies in `[-8192, 8192]` (so no
`int32_t` sum wraps), and the four lanes of the dot-product-instruction variant and of
the widening-multiply variant both total the exact sum over `i < 16` of
`(lowNibble(qs4[i]) - 8) * qs8[i] + (highNibble(qs4[i]) - 8) * qs8[i + 16]`. -/
theorem C20_block_dot_exact (x : BlockQ40) (y : BlockQ80)
    (hy : ∀ i, i < 32 → -128 ≤ y.qs i ∧ y.qs i ≤ 127) :
    (∀ i, i < 16 →
      ((unpackQ40 x).1 i = (lowNibble (x.qs i) : Int) - 8 ∧
        -8 ≤ (unpackQ40 x).1 i ∧ (unpackQ40 x).1 i ≤ 7) ∧
      ((unpackQ40 x).2 i = (highNibble (x.qs i) : Int) - 8 ∧
        -8 ≤ (unpackQ40 x).2 i ∧ (unpackQ40 x).2 i ≤ 7)) ∧
    (∀ i, i < 16 →
      (-32768 ≤ (unpackQ40 x).1 i * y.qs i ∧ (unpackQ40 x).1 i * y.qs i ≤ 32767) ∧
      (-32768 ≤ (unpackQ40 x).2 i * y.qs (i + 16) ∧
        (unpackQ40 x).2 i * y.qs (i + 16) ≤ 32767)) ∧
    (∀ k, k < 4 →
      (-8192 ≤ blockDotDotprod x y k ∧ blockDotDotprod x y k ≤ 8192) ∧
      (-8192 ≤ blockDotWiden x y k ∧ blockDotWiden x y k ≤ 8192)) ∧
    laneTotal (blockDotDotprod x y) = blockIntSum x y ∧
    laneTotal (blockDotWiden x y) = blockIntSum x y ∧
    (∀ b : Build, laneTotal (blockDot b x y) = blockIntSum x y) := by
  refine ⟨?_, ?_, ?_, blockDotDotprod_total x y hy, blockDotWiden_total x y hy, ?_⟩
  · intro i _
    rw [(unpackQ40_eq x i).1, (unpackQ40_eq x i).2]
    exact ⟨⟨rfl, q4Low_range x i⟩, ⟨rfl, q4High_range x i⟩⟩
  · intro i hi
    rw [(unpackQ40_eq x i).1, (unpackQ40_eq x i).2]
    have p := product_range _ _ (q4Low_range x i) (hy i (by omega))
    have q := product_range _ _ (q4High_range x i) (hy (i + 16) (by omega))
    constructor <;> constructor <;> omega
  · intro k hk
    exact ⟨(blockDotDotprod_lane x y hy k hk).2, (blockDotWiden_lane x y hy k hk).2⟩
  · intro b
    unfold blockDot
    split
    · exact blockDotDotprod_total x y hy
    · exact blockDotWiden_total x y hy

theorem C20_block_dot_exact_witness :
    laneTotal (blockDotDotprod (exampleQ40 1 9 10) (exampleQ80 1 (-3)))
      = blockIntSum (exampleQ40 1 9 10) (exampleQ80 1 (-3)) ∧
    laneTotal (blockDotWiden (exampleQ40 1 9 10) (exampleQ80 1 (-3)))
      = blockIntSum (exampleQ40 1 9 10) (exampleQ80 1 (-3)) ∧
    blockIntSum (exampleQ40 1 9 10) (exampleQ80 1 (-3)) = -144 :=
  ⟨(C20_block_dot_exact (exampleQ40 1 9 10) (exampleQ80 1 (-3))
      (fun _ _ => by simp [exampleQ80])).2.2.2.1,
   (C20_block_dot_exact (exampleQ40 1 9 10) (exampleQ80 1 (-3))
      (fun _ _ => by simp [exampleQ80])).2.2.2.2.1, by decide⟩


/-! ## `softmax` where the maximum is found, and where it is not -/

/-- With the maximum subtracted the sum of the exponentials is positive, even when `expf`
vanishes far below zero: the maximal element contributes `expf 0`. -/
theorem sum_expf_pos_of_max {α : Type} [LinearOrderedField α] (expf : α → α)
    (hnn : ∀ v, 0 ≤ expf v) (h0 : 0 < expf 0) (x : Int → α) (size : Nat) (m : α)
    (hm : ∃ j : Nat, j < size ∧ x j = m) :
    0 < ∑ j in Finset.range size, expf (x j - m) := by
  obtain ⟨j0, hj0, hx⟩ := hm
  apply Finset.sum_pos'
  · intro j _
    exact hnn _
  · refine ⟨j0, Finset.mem_range.mpr hj0, ?_⟩
    rw [hx, sub_self]
    exact h0

/-- With a positive sum of exponentials the result is a probability vector. -/
theorem softmaxFrom_probability_of_sum_pos {α : Type} [LinearOrderedField α] (expf : α → α)
    (hnn : ∀ v, 0 ≤ expf v) (maxVal : α) (x : Int → α) (size : Nat)
    (hS : 0 < ∑ j in Finset.range size, expf (x j - maxVal)) :
    (∀ i : Nat, i < size →
      0 ≤ softmaxFrom expf maxVal x size i ∧ softmaxFrom expf maxVal x size i ≤ 1) ∧
    ∑ i in Finset.range size, softmaxFrom expf maxVal x size i = 1 := by
  constructor
  · intro i hi
    rw [softmaxFrom_apply expf maxVal x size i hi]
    constructor
    · exact div_nonneg (hnn _) hS.le
    · rw [div_le_one hS]
      exact Finset.single_le_sum (f := fun j : Nat => expf (x j - maxVal))
        (fun j _ => hnn _) (Finset.mem_range.mpr hi)
  · rw [Finset.sum_congr rfl (fun i hi =>
      softmaxFrom_apply expf maxVal x size i (Finset.mem_range.mp hi))]
    rw [← Finset.sum_div, div_self hS.ne']

/-- On the portable path, and on the vectorized path for a size that is a multiple of 4, the
value subtracted in `softmax` is the maximum of `x[0 .. size - 1]`. -/
theorem softmax_maxVal_eq {α : Type} [LinearOrderedField α] (bld : Build) (x : Int → α)
    (size : Nat) (hsize : 1 ≤ size) (hb : bld.neon = false ∨ size % 4 = 0) :
    (if bld.neon = true then softmaxMaxNeon x size else softmaxMaxScalar x size)
      = softmaxMaxScalar x size := by
  by_cases hn : bld.neon = true
  · rw [if_pos hn]
    rcases hb with h | h
    · rw [hn] at h; cases h
    · exact (softmax_neon_eq_scalar_of_aligned (fun v => v) x size hsize h).1
  · rw [if_neg hn]

/-- Where the maximum is found (portable path, or vectorized path with a size that is a
multiple of 4) `softmax` yields the probability vector of the claim: each `x[i]` is
`expf (x0[i] - m)` over the sum of the `expf (x0[j] - m)` with `m` the maximum, every element
lies in `[0, 1]` and the elements sum to `1`. Only `expf ≥ 0` and `expf 0 > 0` are used, so
underflow of `expf` far below zero does no harm. -/
theorem softmax_probability_of_max {α : Type} [LinearOrderedField α] (expf : α → α)
    (hnn : ∀ v, 0 ≤ expf v) (h0 : 0 < expf 0) (bld : Build) (x : Int → α) (size : Nat)
    (hsize : 1 ≤ size) (hb : bld.neon = false ∨ size % 4 = 0) :
    ((∃ j : Nat, j < size ∧ x j = softmaxMaxScalar x size) ∧
      ∀ j : Nat, j < size → x j ≤ softmaxMaxScalar x size) ∧
    (∀ i : Nat, i < size →
      softmax bld expf x size i
        = expf (x i - softmaxMaxScalar x size)
          / ∑ j in Finset.range size, expf (x j - softmaxMaxScalar x size)) ∧
    (∀ i : Nat, i < size →
      0 ≤ softmax bld expf x size i ∧ softmax bld expf x size i ≤ 1) ∧
    ∑ i in Finset.range size, softmax bld expf x size i = 1 := by
  have hmax := softmaxMaxScalar_isMax x size hsize
  have hS := sum_expf_pos_of_max expf hnn h0 x size (softmaxMaxScalar x size) hmax.1
  have hp := softmaxFrom_probability_of_sum_pos expf hnn (softmaxMaxScalar x size) x size hS
  have hval := softmax_maxVal_eq bld x size hsize hb
  unfold softmax
  rw [hval]
  exact ⟨hmax, fun i hi => softmaxFrom_apply expf _ x size i hi, hp.1, hp.2⟩

/-- Where the maximum is found `softmax` preserves the order of its inputs, strictly for a
strictly increasing `expf`. -/
theorem softmax_order_of_max {α : Type} [LinearOrderedField α] (expf : α → α)
    (hnn : ∀ v, 0 ≤ expf v) (h0 : 0 < expf 0) (hmono : Monotone expf) (bld : Build)
    (x : Int → α) (size : Nat) (hsize : 1 ≤ size) (hb : bld.neon = false ∨ size % 4 = 0)
    (i j : Nat) (hi : i < size) (hj : j < size) :
    (x i ≤ x j → softmax bld expf x size i ≤ softmax bld expf x size j) ∧
    (StrictMono expf → x i < x j →
      softmax bld expf x size i < softmax bld expf x size j) := by
  have hmax := softmaxMaxScalar_isMax x size hsize
  have hS := sum_expf_pos_of_max expf hnn h0 x size (softmaxMaxScalar x size) hmax.1
  have hval := softmax_maxVal_eq bld x size hsize hb
  unfold softmax
  rw [hval, softmaxFrom_apply expf _ x size i hi, softmaxFrom_apply expf _ x size j hj]
  constructor
  · intro h
    apply div_le_div_of_nonneg_right _ hS.le
    exact hmono (sub_le_sub_right h _)
  · intro hs h
    apply div_lt_div_of_pos_right _ hS
    exact hs (sub_lt_sub_right h _)

theorem exampleVectorQ_maxNeon : softmaxMaxNeon (exampleVectorQ 1000) 2 = 1000 := by
  decide

theorem exampleVectorQ_maxScalar : softmaxMaxScalar (exampleVectorQ 1000) 2 = 1 := by
  decide

theorem exampleVectorQ_sum_zero :
    (softmaxExpSum underflowExpf (softmaxMaxNeon (exampleVectorQ 1000) 2)
      (exampleVectorQ 1000) 2).2 = 0 := by
  rw [softmaxExpSum_eq, exampleVectorQ_maxNeon]
  norm_num [Finset.sum_range_succ, underflowExpf, exampleVectorQ]

theorem exampleVectorQ_neon_out (i : Nat) (hi : i < 2) :
    softmax neonBuild underflowExpf (exampleVectorQ 1000) 2 i = 0 := by
  unfold softmax
  rw [softmaxFrom_apply _ _ _ _ i hi]
  simp only [neonBuild, if_true, exampleVectorQ_maxNeon]
  interval_cases i <;> norm_num [Finset.sum_range_succ, underflowExpf, exampleVectorQ]

theorem exampleVectorQ_portable_out :
    softmax portableBuild underflowExpf (exampleVectorQ 1000) 2 (0 : Nat) = 1 / 3 ∧
    softmax portableBuild underflowExpf (exampleVectorQ 1000) 2 (1 : Nat) = 2 / 3 := by
  unfold softmax
  rw [softmaxFrom_apply _ _ _ _ 0 (by decide), softmaxFrom_apply _ _ _ _ 1 (by decide)]
  simp only [portableBuild, Bool.false_eq_true, if_false, exampleVectorQ_maxScalar]
  constructor <;> norm_num [Finset.sum_range_succ, underflowExpf, exampleVectorQ]

/-- C9 (the code at the failing input): `size = 2`, the vector `0, 1` with the float `1000`
behind it, and an `expf` that underflows to `0` below `-100`. The portable path subtracts
the maximum `1` and yields `1/3, 2/3`. The vectorized path loads `x[0 .. 3]` and subtracts
`1000`, which is not an element of the vector: both exponentials underflow, `sum` is `0`,
and the loop "normalize" divides `0` by `0` (a NaN in `float`; the field of the model puts
`0`): the elements are not the quotient of the claim and do not sum to `1`. -/
theorem C9_neon_sum_is_zero :
    (exampleVectorQ 1000 0 = 0 ∧ exampleVectorQ 1000 1 = 1) ∧
    softmaxMaxScalar (exampleVectorQ 1000) 2 = 1 ∧
    softmaxMaxNeon (exampleVectorQ 1000) 2 = 1000 ∧
    (softmax portableBuild underflowExpf (exampleVectorQ 1000) 2 (0 : Nat) = 1 / 3 ∧
      softmax portableBuild underflowExpf (exampleVectorQ 1000) 2 (1 : Nat) = 2 / 3) ∧
    (softmaxExpSum underflowExpf (softmaxMaxNeon (exampleVectorQ 1000) 2)
      (exampleVectorQ 1000) 2).2 = 0 ∧
    ∑ i in Finset.range 2, softmax neonBuild underflowExpf (exampleVectorQ 1000) 2 i ≠ 1 := by
  refine ⟨⟨by decide, by decide⟩, exampleVectorQ_maxScalar, exampleVectorQ_maxNeon,
    exampleVectorQ_portable_out, exampleVectorQ_sum_zero, ?_⟩
  rw [Finset.sum_congr rfl (fun i hi =>
    exampleVectorQ_neon_out i (Finset.mem_range.mp hi))]
  norm_num

theorem softmax_order_example :
    ((fun i : Int => (i : ℚ)) (0 : Nat) ≤ (fun i : Int => (i : ℚ)) (2 : Nat) →
      softmax neonBuild exampleExpf (fun i : Int => (i : ℚ)) 4 (0 : Nat)
        ≤ softmax neonBuild exampleExpf (fun i : Int => (i : ℚ)) 4 (2 : Nat)) ∧
    (StrictMono exampleExpf →
      (fun i : Int => (i : ℚ)) (0 : Nat) < (fun i : Int => (i : ℚ)) (2 : Nat) →
      softmax neonBuild exampleExpf (fun i : Int => (i : ℚ)) 4 (0 : Nat)
        < softmax neonBuild exampleExpf (fun i : Int => (i : ℚ)) 4 (2 : Nat)) :=
  softmax_order_of_max exampleExpf (fun v => (exampleExpf_pos v).le) (exampleExpf_pos 0)
    exampleExpf_strictMono.monotone neonBuild (fun i : Int => (i : ℚ)) 4 (by decide)
    (Or.inr (by decide)) 0 2 (by decide) (by decide)

end DLlama
